import Mathlib

/-!  Verification development for the raw node-graph engine of an
in-memory XML document store (`src/raw.rs`): arena-backed storage,
parent/child re-linking, attribute replacement, namespace resolution
and sibling iteration.

Modelling choices (shallow embedding):
* each `TypedArena` becomes a `List` indexed by allocation order, and a
  raw pointer becomes the `Nat` index of the node in its arena;
* the string pool becomes `String` itself (interning two byte-equal
  strings yields equal values, which is exactly `String` equality);
* Rust `HashMap<InternedString, InternedString>` becomes an association
  list whose iteration order is insertion order (`HashMap` iteration
  order is unspecified, so any fixed order is a faithful refinement);
* `Vec::retain(p)` becomes `List.filter p`, `Vec::push` becomes
  appending a singleton;
* the `position(..).unwrap()` in `SiblingIter` is modelled by an
  `Option`: `none` models the panic;
* the unbounded ancestor-walk loops of the namespace functions are
  modelled with fuel `elements.length + 1`; `chain_stops` records that
  the walk genuinely terminated within the fuel.  -/

namespace XmlRaw

structure QName where
  namespace_uri : Option String
  local_part : String
  deriving DecidableEq, Repr

inductive ChildOfRoot where
  | element (n : Nat)
  | comment (n : Nat)
  | pi (n : Nat)
  deriving DecidableEq, Repr

inductive ChildOfElement where
  | element (n : Nat)
  | text (n : Nat)
  | comment (n : Nat)
  | pi (n : Nat)
  deriving DecidableEq, Repr

inductive ParentOfChild where
  | root (n : Nat)
  | element (n : Nat)
  deriving DecidableEq, Repr

def ChildOfRoot.is_element : ChildOfRoot → Bool
  | .element _ => true
  | _ => false

def ChildOfRoot.to_child_of_element : ChildOfRoot → ChildOfElement
  | .element n => .element n
  | .comment n => .comment n
  | .pi n => .pi n

structure Element where
  name : QName
  preferred_pfx : Option String
  children : List ChildOfElement
  parent : Option ParentOfChild
  attributes : List Nat
  pfx_to_namespace : List (String × String)
  deriving DecidableEq, Repr

structure Attribute where
  name : QName
  preferred_pfx : Option String
  value : String
  parent : Option Nat
  deriving DecidableEq, Repr

structure Text where
  text : String
  parent : Option Nat
  deriving DecidableEq, Repr

structure Comment where
  text : String
  parent : Option ParentOfChild
  deriving DecidableEq, Repr

structure ProcessingInstruction where
  target : String
  value : Option String
  parent : Option ParentOfChild
  deriving DecidableEq, Repr

structure Root where
  children : List ChildOfRoot
  deriving DecidableEq, Repr

instance : Inhabited QName := ⟨⟨none, ""⟩⟩
instance : Inhabited Root := ⟨⟨[]⟩⟩
instance : Inhabited Element := ⟨⟨default, none, [], none, [], []⟩⟩
instance : Inhabited Attribute := ⟨⟨default, none, "", none⟩⟩
instance : Inhabited Text := ⟨⟨"", none⟩⟩
instance : Inhabited Comment := ⟨⟨"", none⟩⟩
instance : Inhabited ProcessingInstruction := ⟨⟨"", none, none⟩⟩

structure Storage where
  roots : List Root
  elements : List Element
  attributes : List Attribute
  texts : List Text
  comments : List Comment
  processing_instructions : List ProcessingInstruction
  deriving DecidableEq, Repr

def emptyStorage : Storage := ⟨[], [], [], [], [], []⟩

def Storage.getRoot (s : Storage) (i : Nat) : Root := s.roots.getD i default
def Storage.getElement (s : Storage) (i : Nat) : Element := s.elements.getD i default
def Storage.getAttribute (s : Storage) (i : Nat) : Attribute := s.attributes.getD i default
def Storage.getText (s : Storage) (i : Nat) : Text := s.texts.getD i default
def Storage.getComment (s : Storage) (i : Nat) : Comment := s.comments.getD i default
def Storage.getPI (s : Storage) (i : Nat) : ProcessingInstruction :=
  s.processing_instructions.getD i default

def Storage.updateRoot (s : Storage) (i : Nat) (f : Root → Root) : Storage :=
  { s with roots := s.roots.set i (f (s.roots.getD i default)) }
def Storage.updateElement (s : Storage) (i : Nat) (f : Element → Element) : Storage :=
  { s with elements := s.elements.set i (f (s.elements.getD i default)) }
def Storage.updateAttribute (s : Storage) (i : Nat) (f : Attribute → Attribute) : Storage :=
  { s with attributes := s.attributes.set i (f (s.attributes.getD i default)) }
def Storage.updateText (s : Storage) (i : Nat) (f : Text → Text) : Storage :=
  { s with texts := s.texts.set i (f (s.texts.getD i default)) }
def Storage.updateComment (s : Storage) (i : Nat) (f : Comment → Comment) : Storage :=
  { s with comments := s.comments.set i (f (s.comments.getD i default)) }
def Storage.updatePI (s : Storage) (i : Nat) (f : ProcessingInstruction → ProcessingInstruction) :
    Storage :=
  { s with processing_instructions :=
      s.processing_instructions.set i (f (s.processing_instructions.getD i default)) }

/-- The fixed `xml` namespace prefix string. -/
def xmlNsPfx : String := "xml"

/-- The fixed URI permanently bound to the `xml` prefix. -/
def xmlNsUri : String := "http://www.w3.org/XML/1998/namespace"

/-- Lookup in the association-list model of `HashMap::get`. -/
def hmGet (m : List (String × String)) (k : String) : Option String :=
  (m.find? (fun kv => decide (kv.1 = k))).map (fun kv => kv.2)

/-- Insert-or-overwrite in the association-list model of `HashMap::insert`. -/
def hmInsert (m : List (String × String)) (k v : String) : List (String × String) :=
  if m.any (fun kv => decide (kv.1 = k)) then
    m.map (fun kv => if kv.1 = k then (k, v) else kv)
  else m ++ [(k, v)]

/-! ## Storage factory operations and per-node field mutation (`impl Storage`) -/

/-- `Storage::create_root`: fresh `Root`, no children; the returned `Nat` is
the new handle. -/
def create_root (s : Storage) : Storage × Nat :=
  ({ s with roots := s.roots ++ [{ children := [] }] }, s.roots.length)

/-- `Storage::create_element`: fresh orphan element. -/
def create_element (s : Storage) (name : QName) : Storage × Nat :=
  ({ s with elements := s.elements ++
      [{ name := name, preferred_pfx := none, children := [], parent := none,
         attributes := [], pfx_to_namespace := [] }] }, s.elements.length)

/-- `Storage::create_attribute`: fresh orphan attribute. -/
def create_attribute (s : Storage) (name : QName) (value : String) : Storage × Nat :=
  ({ s with attributes := s.attributes ++
      [{ name := name, preferred_pfx := none, value := value, parent := none }] },
   s.attributes.length)

/-- `Storage::create_text`: fresh orphan text node. -/
def create_text (s : Storage) (text : String) : Storage × Nat :=
  ({ s with texts := s.texts ++ [{ text := text, parent := none }] }, s.texts.length)

/-- `Storage::create_comment`: fresh orphan comment node. -/
def create_comment (s : Storage) (text : String) : Storage × Nat :=
  ({ s with comments := s.comments ++ [{ text := text, parent := none }] }, s.comments.length)

/-- `Storage::create_processing_instruction`: fresh orphan PI node. -/
def create_processing_instruction (s : Storage) (target : String) (value : Option String) :
    Storage × Nat :=
  ({ s with processing_instructions := s.processing_instructions ++
      [{ target := target, value := value, parent := none }] },
   s.processing_instructions.length)

/-- `Storage::element_set_name`. -/
def element_set_name (s : Storage) (e : Nat) (name : QName) : Storage :=
  s.updateElement e (fun x => { x with name := name })

/-- `Storage::element_register_prefix`: insert/overwrite a local
(prefix → namespace URI) binding on an element. -/
def element_register_pfx (s : Storage) (e : Nat) (p uri : String) : Storage :=
  s.updateElement e (fun x => { x with pfx_to_namespace := hmInsert x.pfx_to_namespace p uri })

/-- `Storage::element_set_preferred_prefix`. -/
def element_set_preferred_pfx (s : Storage) (e : Nat) (p : Option String) : Storage :=
  s.updateElement e (fun x => { x with preferred_pfx := p })

/-- `Storage::attribute_set_preferred_prefix`. -/
def attribute_set_preferred_pfx (s : Storage) (a : Nat) (p : Option String) : Storage :=
  s.updateAttribute a (fun x => { x with preferred_pfx := p })

/-- `Storage::text_set_text`. -/
def text_set_text (s : Storage) (t : Nat) (new_text : String) : Storage :=
  s.updateText t (fun x => { x with text := new_text })

/-- `Storage::comment_set_text`. -/
def comment_set_text (s : Storage) (c : Nat) (new_text : String) : Storage :=
  s.updateComment c (fun x => { x with text := new_text })

/-- `Storage::processing_instruction_set_target`. -/
def processing_instruction_set_target (s : Storage) (p : Nat) (new_target : String) : Storage :=
  s.updatePI p (fun x => { x with target := new_target })

/-- `Storage::processing_instruction_set_value`. -/
def processing_instruction_set_value (s : Storage) (p : Nat) (new_value : Option String) :
    Storage :=
  s.updatePI p (fun x => { x with value := new_value })

/-! ## Parent / child accessors and the re-linking machinery -/

/-- The value of the `parent` field of a root-capable child, uniformly
(the union of the per-kind `parent` fields read by the free function
`replace_parent`). -/
def parentOfCOR (s : Storage) : ChildOfRoot → Option ParentOfChild
  | .element n => (s.getElement n).parent
  | .comment n => (s.getComment n).parent
  | .pi n => (s.getPI n).parent

/-- The `parent` field of an element child, widened to `ParentOfChild`
(a `Text` parent is always an element). -/
def parentOfCOE (s : Storage) : ChildOfElement → Option ParentOfChild
  | .element n => (s.getElement n).parent
  | .text n => ((s.getText n).parent).map ParentOfChild.element
  | .comment n => (s.getComment n).parent
  | .pi n => (s.getPI n).parent

/-- The removal half of the free function `replace_parent` in `raw.rs`:
if the child currently has a parent, `retain` it away from that
parent's children list. -/
def remove_from_prev (s : Storage) (child : ChildOfRoot) (prev : Option ParentOfChild) :
    Storage :=
  match prev with
  | some (.root r) =>
      s.updateRoot r (fun rd => { rd with children := rd.children.filter (fun n => decide (n ≠ child)) })
  | some (.element e) =>
      let ce := child.to_child_of_element
      s.updateElement e (fun ed => { ed with children := ed.children.filter (fun n => decide (n ≠ ce)) })
  | none => s

/-- Store the new `parent` into the child's own `parent` field (the
`*parent_field = Some(parent)` half of the free `replace_parent`). -/
def set_parent_field (s : Storage) (child : ChildOfRoot) (p : ParentOfChild) : Storage :=
  match child with
  | .element n => s.updateElement n (fun x => { x with parent := some p })
  | .comment n => s.updateComment n (fun x => { x with parent := some p })
  | .pi n => s.updatePI n (fun x => { x with parent := some p })

/-- The free function `replace_parent(child, parent, parent_field)`:
remove the child from its previous parent's children list, then set its
parent field. -/
def replace_parent_field (s : Storage) (child : ChildOfRoot) (parent : ParentOfChild) : Storage :=
  let s1 := remove_from_prev s child (parentOfCOR s child)
  set_parent_field s1 child parent

/-- `ChildOfRoot::replace_parent`: for an `Element` child, first evict
every existing `Element` from the new root's children (the displaced
element's own `parent` field is NOT touched), then run the free
`replace_parent`. -/
def ChildOfRoot.replace_parent (s : Storage) (child : ChildOfRoot) (parent : Nat) : Storage :=
  match child with
  | .element _ =>
      let s1 := s.updateRoot parent
        (fun rd => { rd with children := rd.children.filter (fun c => decide (¬ c.is_element = true)) })
      replace_parent_field s1 child (.root parent)
  | _ => replace_parent_field s child (.root parent)

/-- `ChildOfElement::replace_parent`: `Text` children carry a bare
element-pointer parent and are handled inline; the other kinds reuse the
free `replace_parent`. -/
def ChildOfElement.replace_parent (s : Storage) (child : ChildOfElement) (parent : Nat) :
    Storage :=
  match child with
  | .element n => replace_parent_field s (.element n) (.element parent)
  | .comment n => replace_parent_field s (.comment n) (.element parent)
  | .pi n => replace_parent_field s (.pi n) (.element parent)
  | .text n =>
      let s1 := match (s.getText n).parent with
        | some prev => s.updateElement prev
            (fun ed => { ed with children := ed.children.filter (fun m => decide (m ≠ ChildOfElement.text n)) })
        | none => s
      s1.updateText n (fun t => { t with parent := some parent })

/-! ## Connections: structural mutation and read operations -/

/-- `Connections::append_root_child` (the `Connections` value is just
its anchored root handle). -/
def append_root_child (s : Storage) (root : Nat) (child : ChildOfRoot) : Storage :=
  let s1 := ChildOfRoot.replace_parent s child root
  s1.updateRoot root (fun rd => { rd with children := rd.children ++ [child] })

/-- `Connections::append_element_child`. -/
def append_element_child (s : Storage) (parent : Nat) (child : ChildOfElement) : Storage :=
  let s1 := ChildOfElement.replace_parent s child parent
  s1.updateElement parent (fun ed => { ed with children := ed.children ++ [child] })

/-- `Connections::set_attribute`: drop existing attributes of the same
qualified name from the element's list, push the new attribute, set its
parent.  The displaced attribute's `parent` field is NOT touched, and
the new attribute is NOT unlinked from any prior owner. -/
def set_attribute (s : Storage) (parent : Nat) (attr : Nat) : Storage :=
  let aname := (s.getAttribute attr).name
  let s1 := s.updateElement parent (fun ed =>
    { ed with attributes :=
        ed.attributes.filter (fun a => decide ((s.getAttribute a).name ≠ aname)) ++ [attr] })
  s1.updateAttribute attr (fun ad => { ad with parent := some parent })

/-- `Connections::root_children`. -/
def root_children (s : Storage) (root : Nat) : List ChildOfRoot := (s.getRoot root).children

/-- `Connections::element_children`. -/
def element_children (s : Storage) (e : Nat) : List ChildOfElement := (s.getElement e).children

/-- `Connections::attributes` (a list of attribute handles). -/
def attributes (s : Storage) (e : Nat) : List Nat := (s.getElement e).attributes

/-- `Connections::element_parent`. -/
def element_parent (s : Storage) (e : Nat) : Option ParentOfChild := (s.getElement e).parent

/-- `Connections::text_parent`. -/
def text_parent (s : Storage) (t : Nat) : Option Nat := (s.getText t).parent

/-- `Connections::comment_parent`. -/
def comment_parent (s : Storage) (c : Nat) : Option ParentOfChild := (s.getComment c).parent

/-- `Connections::processing_instruction_parent`. -/
def processing_instruction_parent (s : Storage) (p : Nat) : Option ParentOfChild :=
  (s.getPI p).parent

/-- `Connections::attribute_parent`. -/
def attribute_parent (s : Storage) (a : Nat) : Option Nat := (s.getAttribute a).parent

/-! ## Connections: namespace resolution (ancestor walks, modelled with fuel) -/

/-- The loop body of `Connections::element_namespace_uri_for_prefix`:
return the nearest local binding of the prefix, walking up through
`Element` parents only.  The fuel bounds the walk; the Rust loop
diverges on a parent cycle, which fuel exhaustion models as `none`. -/
def nsUriForPfxAux (s : Storage) (p : String) : Nat → Nat → Option String
  | 0, _ => none
  | fuel + 1, e =>
    match hmGet (s.getElement e).pfx_to_namespace p with
    | some uri => some uri
    | none =>
      match (s.getElement e).parent with
      | some (.element q) => nsUriForPfxAux s p fuel q
      | _ => none

/-- `Connections::element_namespace_uri_for_prefix`. -/
def element_namespace_uri_for_pfx (s : Storage) (e : Nat) (p : String) : Option String :=
  nsUriForPfxAux s p (s.elements.length + 1) e

/-- The inclusive chain of elements walked by the namespace loops:
the element itself, then its `Element` parents, cut off by the fuel. -/
def elemChainAux (s : Storage) : Nat → Nat → List Nat
  | 0, _ => []
  | fuel + 1, e =>
    e :: (match (s.getElement e).parent with
          | some (.element q) => elemChainAux s fuel q
          | _ => [])

/-- `true` iff the ancestor walk starting at `e` reaches an element with
no `Element` parent within the given fuel (i.e. the walk terminates). -/
def chainStopsAux (s : Storage) : Nat → Nat → Bool
  | 0, _ => false
  | fuel + 1, e =>
    match (s.getElement e).parent with
    | some (.element q) => chainStopsAux s fuel q
    | _ => true

/-- The chain walked from `e` with the standard fuel. -/
def elemChain (s : Storage) (e : Nat) : List Nat := elemChainAux s (s.elements.length + 1) e

/-- The ancestor walk from `e` terminates within the standard fuel
(always true on an acyclic store). -/
def ChainComplete (s : Storage) (e : Nat) : Prop :=
  chainStopsAux s (s.elements.length + 1) e = true

instance (s : Storage) (e : Nat) : Decidable (ChainComplete s e) := by
  unfold ChainComplete; infer_instance

/-- The push-if-prefix-unseen step of `element_namespaces_in_scope`. -/
def insertNS (acc : List (String × String)) (pu : String × String) : List (String × String) :=
  if acc.any (fun ns => decide (ns.1 = pu.1)) then acc else acc ++ [pu]

/-- The element-chain loop of `Connections::element_namespaces_in_scope`:
fold each element's local bindings into the accumulator (skipping
already-seen prefixes), then ascend. -/
def nsInScopeAux (s : Storage) : Nat → Nat → List (String × String) → List (String × String)
  | 0, _, acc => acc
  | fuel + 1, e, acc =>
    let acc1 := (s.getElement e).pfx_to_namespace.foldl insertNS acc
    match (s.getElement e).parent with
    | some (.element q) => nsInScopeAux s fuel q acc1
    | _ => acc1

/-- `Connections::element_namespaces_in_scope`, seeded with the fixed
(`xml`, xml namespace URI) pair. -/
def element_namespaces_in_scope (s : Storage) (e : Nat) : List (String × String) :=
  nsInScopeAux s (s.elements.length + 1) e [(xmlNsPfx, xmlNsUri)]

/-! ## Sibling iteration -/

inductive SiblingDirection where
  | preceding
  | following

/-- `Iterator::position(|c| *c == child)` as used by `SiblingIter`. -/
def listPosition (p : α → Bool) : List α → Option Nat
  | [] => none
  | x :: xs => if p x then some 0 else (listPosition p xs).map (· + 1)

/-- `SiblingIter::of_root`: locate the child by identity in the root's
children; `none` models the `unwrap` panic when the child is absent.
The yielded slice is widened to `ChildOfElement`, as by the iterator's
`next`. -/
def SiblingIter.of_root (s : Storage) (dir : SiblingDirection) (root : Nat)
    (child : ChildOfRoot) : Option (List ChildOfElement) :=
  let data := (s.getRoot root).children
  (listPosition (fun c => decide (c = child)) data).map (fun pos =>
    match dir with
    | .preceding => (data.take pos).map ChildOfRoot.to_child_of_element
    | .following => (data.drop (pos + 1)).map ChildOfRoot.to_child_of_element)

/-- `SiblingIter::of_element`; `none` models the `unwrap` panic. -/
def SiblingIter.of_element (s : Storage) (dir : SiblingDirection) (parent : Nat)
    (child : ChildOfElement) : Option (List ChildOfElement) :=
  let data := (s.getElement parent).children
  (listPosition (fun c => decide (c = child)) data).map (fun pos =>
    match dir with
    | .preceding => data.take pos
    | .following => data.drop (pos + 1))

/-- `SiblingIter::dead`: the empty sequence. -/
def SiblingIter.dead : Option (List ChildOfElement) := some []

/-- `Connections::element_preceding_siblings`. -/
def element_preceding_siblings (s : Storage) (e : Nat) : Option (List ChildOfElement) :=
  match (s.getElement e).parent with
  | some (.root r) => SiblingIter.of_root s .preceding r (.element e)
  | some (.element p) => SiblingIter.of_element s .preceding p (.element e)
  | none => SiblingIter.dead

/-- `Connections::element_following_siblings`. -/
def element_following_siblings (s : Storage) (e : Nat) : Option (List ChildOfElement) :=
  match (s.getElement e).parent with
  | some (.root r) => SiblingIter.of_root s .following r (.element e)
  | some (.element p) => SiblingIter.of_element s .following p (.element e)
  | none => SiblingIter.dead

/-- `Connections::text_preceding_siblings`. -/
def text_preceding_siblings (s : Storage) (t : Nat) : Option (List ChildOfElement) :=
  match (s.getText t).parent with
  | some p => SiblingIter.of_element s .preceding p (.text t)
  | none => SiblingIter.dead

/-- `Connections::text_following_siblings`. -/
def text_following_siblings (s : Storage) (t : Nat) : Option (List ChildOfElement) :=
  match (s.getText t).parent with
  | some p => SiblingIter.of_element s .following p (.text t)
  | none => SiblingIter.dead

/-- `Connections::comment_preceding_siblings`. -/
def comment_preceding_siblings (s : Storage) (c : Nat) : Option (List ChildOfElement) :=
  match (s.getComment c).parent with
  | some (.root r) => SiblingIter.of_root s .preceding r (.comment c)
  | some (.element p) => SiblingIter.of_element s .preceding p (.comment c)
  | none => SiblingIter.dead

/-- `Connections::comment_following_siblings`. -/
def comment_following_siblings (s : Storage) (c : Nat) : Option (List ChildOfElement) :=
  match (s.getComment c).parent with
  | some (.root r) => SiblingIter.of_root s .following r (.comment c)
  | some (.element p) => SiblingIter.of_element s .following p (.comment c)
  | none => SiblingIter.dead

/-- `Connections::processing_instruction_preceding_siblings`. -/
def processing_instruction_preceding_siblings (s : Storage) (p : Nat) :
    Option (List ChildOfElement) :=
  match (s.getPI p).parent with
  | some (.root r) => SiblingIter.of_root s .preceding r (.pi p)
  | some (.element q) => SiblingIter.of_element s .preceding q (.pi p)
  | none => SiblingIter.dead

/-- `Connections::processing_instruction_following_siblings`. -/
def processing_instruction_following_siblings (s : Storage) (p : Nat) :
    Option (List ChildOfElement) :=
  match (s.getPI p).parent with
  | some (.root r) => SiblingIter.of_root s .following r (.pi p)
  | some (.element q) => SiblingIter.of_element s .following q (.pi p)
  | none => SiblingIter.dead

/-- The parent's child list in document order, widened to the
element-child union (root children widen as the iterator does). -/
def parentChildList (s : Storage) : ParentOfChild → List ChildOfElement
  | .root r => (root_children s r).map ChildOfRoot.to_child_of_element
  | .element e => element_children s e

/-! ## The operation language: every mutating Storage / Connections call -/

inductive Op where
  | createRoot
  | createElement (name : QName)
  | createAttribute (name : QName) (value : String)
  | createText (text : String)
  | createComment (text : String)
  | createPI (target : String) (value : Option String)
  | elementSetName (e : Nat) (name : QName)
  | elementRegisterPfx (e : Nat) (p uri : String)
  | elementSetPreferredPfx (e : Nat) (p : Option String)
  | attributeSetPreferredPfx (a : Nat) (p : Option String)
  | textSetText (t : Nat) (text : String)
  | commentSetText (c : Nat) (text : String)
  | piSetTarget (p : Nat) (target : String)
  | piSetValue (p : Nat) (value : Option String)
  | appendRootChild (root : Nat) (child : ChildOfRoot)
  | appendElementChild (parent : Nat) (child : ChildOfElement)
  | setAttribute (parent : Nat) (attr : Nat)

def Op.apply (s : Storage) : Op → Storage
  | .createRoot => (create_root s).1
  | .createElement name => (create_element s name).1
  | .createAttribute name value => (create_attribute s name value).1
  | .createText text => (create_text s text).1
  | .createComment text => (create_comment s text).1
  | .createPI target value => (create_processing_instruction s target value).1
  | .elementSetName e name => element_set_name s e name
  | .elementRegisterPfx e p uri => element_register_pfx s e p uri
  | .elementSetPreferredPfx e p => element_set_preferred_pfx s e p
  | .attributeSetPreferredPfx a p => attribute_set_preferred_pfx s a p
  | .textSetText t text => text_set_text s t text
  | .commentSetText c text => comment_set_text s c text
  | .piSetTarget p target => processing_instruction_set_target s p target
  | .piSetValue p value => processing_instruction_set_value s p value
  | .appendRootChild root child => append_root_child s root child
  | .appendElementChild parent child => append_element_child s parent child
  | .setAttribute parent attr => set_attribute s parent attr

/-- Handle validity: a root-capable child handle indexes its arena. -/
def validCOR (s : Storage) : ChildOfRoot → Prop
  | .element n => n < s.elements.length
  | .comment n => n < s.comments.length
  | .pi n => n < s.processing_instructions.length

/-- Handle validity for element children. -/
def validCOE (s : Storage) : ChildOfElement → Prop
  | .element n => n < s.elements.length
  | .text n => n < s.texts.length
  | .comment n => n < s.comments.length
  | .pi n => n < s.processing_instructions.length

instance (s : Storage) (c : ChildOfRoot) : Decidable (validCOR s c) := by
  cases c <;> (unfold validCOR; infer_instance)

instance (s : Storage) (c : ChildOfElement) : Decidable (validCOE s c) := by
  cases c <;> (unfold validCOE; infer_instance)

/-- In Rust every handle passed to an operation is a live pointer into
the same `Storage`; validity makes that explicit for the index model. -/
def Op.valid (s : Storage) : Op → Prop
  | .createRoot | .createElement _ | .createAttribute _ _ | .createText _
  | .createComment _ | .createPI _ _ => True
  | .elementSetName e _ => e < s.elements.length
  | .elementRegisterPfx e _ _ => e < s.elements.length
  | .elementSetPreferredPfx e _ => e < s.elements.length
  | .attributeSetPreferredPfx a _ => a < s.attributes.length
  | .textSetText t _ => t < s.texts.length
  | .commentSetText c _ => c < s.comments.length
  | .piSetTarget p _ => p < s.processing_instructions.length
  | .piSetValue p _ => p < s.processing_instructions.length
  | .appendRootChild root child => root < s.roots.length ∧ validCOR s child
  | .appendElementChild parent child => parent < s.elements.length ∧ validCOE s child
  | .setAttribute parent attr => parent < s.elements.length ∧ attr < s.attributes.length

instance (s : Storage) (op : Op) : Decidable (Op.valid s op) := by
  cases op <;> (unfold Op.valid; infer_instance)

/-- Apply a sequence of operations, left to right. -/
def applyOps (ops : List Op) (s : Storage) : Storage :=
  match ops with
  | [] => s
  | op :: rest => applyOps rest (op.apply s)

/-- Every operation of the sequence is valid in the state it runs in. -/
def opsValid (s : Storage) : List Op → Prop
  | [] => True
  | op :: rest => Op.valid s op ∧ opsValid (op.apply s) rest

instance (s : Storage) (ops : List Op) : Decidable (opsValid s ops) := by
  induction ops generalizing s with
  | nil => unfold opsValid; infer_instance
  | cons op rest ih => unfold opsValid; exact @instDecidableAnd _ _ _ (ih _)

/-! ## List helper lemmas -/

theorem lx_getD_set_self {α : Type} (l : List α) (i : Nat) (a d : α) (h : i < l.length) :
    (l.set i a).getD i d = a := by
  induction l generalizing i with
  | nil => simp at h
  | cons x xs ih =>
    cases i with
    | zero => rfl
    | succ j => exact ih j (by simpa using h)

theorem lx_getD_set_ne {α : Type} (l : List α) (i j : Nat) (a d : α) (h : i ≠ j) :
    (l.set i a).getD j d = l.getD j d := by
  induction l generalizing i j with
  | nil => rfl
  | cons x xs ih =>
    cases i with
    | zero => cases j with
      | zero => exact absurd rfl h
      | succ k => rfl
    | succ i' => cases j with
      | zero => rfl
      | succ k => exact ih i' k (fun hc => h (by rw [hc]))

theorem lx_set_oob {α : Type} (l : List α) (i : Nat) (a : α) (h : l.length ≤ i) :
    l.set i a = l := by
  induction l generalizing i with
  | nil => rfl
  | cons x xs ih =>
    cases i with
    | zero => simp at h
    | succ j => simpa using ih j (by simpa using h)

theorem lx_getD_append_left {α : Type} (l l' : List α) (i : Nat) (d : α) (h : i < l.length) :
    (l ++ l').getD i d = l.getD i d := by
  induction l generalizing i with
  | nil => simp at h
  | cons x xs ih =>
    cases i with
    | zero => rfl
    | succ j => exact ih j (by simpa using h)

theorem lx_getD_append_len {α : Type} (l : List α) (a d : α) (t : List α) :
    (l ++ a :: t).getD l.length d = a := by
  induction l with
  | nil => rfl
  | cons x xs ih => simpa using ih

theorem lx_set_append_len {α : Type} (l : List α) (a b : α) (t : List α) :
    (l ++ a :: t).set l.length b = l ++ b :: t := by
  induction l with
  | nil => rfl
  | cons x xs ih => simpa using ih

theorem lx_nodup_append_single {α : Type} (l : List α) (a : α) (h : a ∉ l) (hn : l.Nodup) :
    (l ++ [a]).Nodup := by
  induction l with
  | nil => simp
  | cons x xs ih =>
    rcases List.nodup_cons.mp hn with ⟨hx, hxs⟩
    refine List.nodup_cons.mpr ⟨?_, ih (fun hm => h (List.mem_cons_of_mem _ hm)) hxs⟩
    intro hm
    rcases List.mem_append.mp hm with hm | hm
    · exact hx hm
    · rcases List.mem_singleton.mp hm with rfl
      exact h (by simp)

theorem lx_countP_filter_le {α : Type} (l : List α) (p q : α → Bool) :
    (l.filter q).countP p ≤ l.countP p := by
  induction l with
  | nil => simp
  | cons x xs ih =>
    by_cases hq : q x = true
    · rw [List.filter_cons_of_pos hq]
      by_cases hp : p x = true
      · rw [List.countP_cons_of_pos _ _ hp, List.countP_cons_of_pos _ _ hp]
        exact Nat.succ_le_succ ih
      · rw [List.countP_cons_of_neg _ _ hp, List.countP_cons_of_neg _ _ hp]
        exact ih
    · rw [List.filter_cons_of_neg hq]
      by_cases hp : p x = true
      · rw [List.countP_cons_of_pos _ _ hp]
        exact Nat.le_succ_of_le ih
      · rw [List.countP_cons_of_neg _ _ hp]
        exact ih

theorem lx_countP_filter_not {α : Type} (l : List α) (p : α → Bool) :
    (l.filter (fun x => decide (¬ p x = true))).countP p = 0 := by
  induction l with
  | nil => simp
  | cons x xs ih =>
    by_cases hp : p x = true
    · rw [List.filter_cons_of_neg (by simp [hp])]
      exact ih
    · rw [List.filter_cons_of_pos (by simp [hp]), List.countP_cons_of_neg _ _ hp]
      exact ih

/-! ## Storage getter / updater lemmas -/

theorem length_updateRoot (s : Storage) (i : Nat) (f : Root → Root) :
    (s.updateRoot i f).roots.length = s.roots.length := by
  simp [Storage.updateRoot]

theorem length_updateElement (s : Storage) (i : Nat) (f : Element → Element) :
    (s.updateElement i f).elements.length = s.elements.length := by
  simp [Storage.updateElement]

theorem length_updateAttribute (s : Storage) (i : Nat) (f : Attribute → Attribute) :
    (s.updateAttribute i f).attributes.length = s.attributes.length := by
  simp [Storage.updateAttribute]

theorem length_updateText (s : Storage) (i : Nat) (f : Text → Text) :
    (s.updateText i f).texts.length = s.texts.length := by
  simp [Storage.updateText]

theorem length_updateComment (s : Storage) (i : Nat) (f : Comment → Comment) :
    (s.updateComment i f).comments.length = s.comments.length := by
  simp [Storage.updateComment]

theorem length_updatePI (s : Storage) (i : Nat)
    (f : ProcessingInstruction → ProcessingInstruction) :
    (s.updatePI i f).processing_instructions.length = s.processing_instructions.length := by
  simp [Storage.updatePI]

theorem getRoot_updateRoot_self (s : Storage) (i : Nat) (f : Root → Root)
    (h : i < s.roots.length) : (s.updateRoot i f).getRoot i = f (s.getRoot i) := by
  exact lx_getD_set_self _ _ _ _ h

theorem getRoot_updateRoot_ne (s : Storage) (i j : Nat) (f : Root → Root) (h : i ≠ j) :
    (s.updateRoot i f).getRoot j = s.getRoot j := by
  exact lx_getD_set_ne _ _ _ _ _ h

theorem getElement_updateElement_self (s : Storage) (i : Nat) (f : Element → Element)
    (h : i < s.elements.length) : (s.updateElement i f).getElement i = f (s.getElement i) := by
  exact lx_getD_set_self _ _ _ _ h

theorem getElement_updateElement_ne (s : Storage) (i j : Nat) (f : Element → Element)
    (h : i ≠ j) : (s.updateElement i f).getElement j = s.getElement j := by
  exact lx_getD_set_ne _ _ _ _ _ h

theorem getAttribute_updateAttribute_self (s : Storage) (i : Nat) (f : Attribute → Attribute)
    (h : i < s.attributes.length) :
    (s.updateAttribute i f).getAttribute i = f (s.getAttribute i) := by
  exact lx_getD_set_self _ _ _ _ h

theorem getAttribute_updateAttribute_ne (s : Storage) (i j : Nat) (f : Attribute → Attribute)
    (h : i ≠ j) : (s.updateAttribute i f).getAttribute j = s.getAttribute j := by
  exact lx_getD_set_ne _ _ _ _ _ h

theorem getText_updateText_self (s : Storage) (i : Nat) (f : Text → Text)
    (h : i < s.texts.length) : (s.updateText i f).getText i = f (s.getText i) := by
  exact lx_getD_set_self _ _ _ _ h

theorem getText_updateText_ne (s : Storage) (i j : Nat) (f : Text → Text) (h : i ≠ j) :
    (s.updateText i f).getText j = s.getText j := by
  exact lx_getD_set_ne _ _ _ _ _ h

theorem getComment_updateComment_self (s : Storage) (i : Nat) (f : Comment → Comment)
    (h : i < s.comments.length) : (s.updateComment i f).getComment i = f (s.getComment i) := by
  exact lx_getD_set_self _ _ _ _ h

theorem getComment_updateComment_ne (s : Storage) (i j : Nat) (f : Comment → Comment)
    (h : i ≠ j) : (s.updateComment i f).getComment j = s.getComment j := by
  exact lx_getD_set_ne _ _ _ _ _ h

theorem getPI_updatePI_self (s : Storage) (i : Nat)
    (f : ProcessingInstruction → ProcessingInstruction) (h : i < s.processing_instructions.length) :
    (s.updatePI i f).getPI i = f (s.getPI i) := by
  exact lx_getD_set_self _ _ _ _ h

theorem getPI_updatePI_ne (s : Storage) (i j : Nat)
    (f : ProcessingInstruction → ProcessingInstruction) (h : i ≠ j) :
    (s.updatePI i f).getPI j = s.getPI j := by
  exact lx_getD_set_ne _ _ _ _ _ h

/-! ## Behaviour of the structural operations on fresh (orphan) nodes -/

/-- The children-filter applied by `ChildOfRoot::replace_parent` to the new
root when the appended child is an element (`retain(|c| !c.is_element())`). -/
def rootEvictElems (rd : Root) : Root :=
  { rd with children := rd.children.filter (fun c => decide (¬ c.is_element = true)) }

theorem arc_elem_eq (s : Storage) (r n : Nat) (hpar : (s.getElement n).parent = none) :
    append_root_child s r (.element n)
      = ((s.updateRoot r rootEvictElems).updateElement n
          (fun x => { x with parent := some (ParentOfChild.root r) })).updateRoot r
          (fun rd => { rd with children := rd.children ++ [ChildOfRoot.element n] }) := by
  have h1 : parentOfCOR (s.updateRoot r (fun rd => { rd with children := rd.children.filter (fun c => decide (¬ c.is_element = true)) })) (.element n) = none := hpar
  simp only [append_root_child, ChildOfRoot.replace_parent, replace_parent_field]
  rw [h1]
  rfl

theorem append_root_child_elem (s : Storage) (r n : Nat)
    (hr : r < s.roots.length) (hn : n < s.elements.length)
    (hpar : (s.getElement n).parent = none) :
    root_children (append_root_child s r (.element n)) r
      = (s.getRoot r).children.filter (fun c => decide (¬ c.is_element = true)) ++ [.element n]
    ∧ element_parent (append_root_child s r (.element n)) n = some (.root r)
    ∧ (∀ m, m ≠ n → element_parent (append_root_child s r (.element n)) m = element_parent s m)
    ∧ (append_root_child s r (.element n)).roots.length = s.roots.length
    ∧ (append_root_child s r (.element n)).elements.length = s.elements.length := by
  rw [arc_elem_eq s r n hpar]
  have hlen1 : r < ((s.updateRoot r rootEvictElems).updateElement n
      (fun x => { x with parent := some (ParentOfChild.root r) })).roots.length := by
    simpa [Storage.updateRoot, Storage.updateElement] using hr
  have hlen2 : n < (s.updateRoot r rootEvictElems).elements.length := by
    simpa [Storage.updateRoot] using hn
  refine ⟨?_, ?_, ?_, ?_, ?_⟩
  · show ((_ : Storage).getRoot r).children = _
    rw [getRoot_updateRoot_self _ _ _ hlen1]
    have h2 : ((s.updateRoot r rootEvictElems).updateElement n
        (fun x => { x with parent := some (ParentOfChild.root r) })).getRoot r
        = (s.updateRoot r rootEvictElems).getRoot r := rfl
    rw [h2, getRoot_updateRoot_self _ _ _ hr]
    rfl
  · show ((_ : Storage).getElement n).parent = _
    have h2 : (((s.updateRoot r rootEvictElems).updateElement n
        (fun x => { x with parent := some (ParentOfChild.root r) })).updateRoot r
        (fun rd => { rd with children := rd.children ++ [ChildOfRoot.element n] })).getElement n
        = ((s.updateRoot r rootEvictElems).updateElement n
        (fun x => { x with parent := some (ParentOfChild.root r) })).getElement n := rfl
    rw [h2, getElement_updateElement_self _ _ _ hlen2]
  · intro m hm
    show ((_ : Storage).getElement m).parent = _
    have h2 : (((s.updateRoot r rootEvictElems).updateElement n
        (fun x => { x with parent := some (ParentOfChild.root r) })).updateRoot r
        (fun rd => { rd with children := rd.children ++ [ChildOfRoot.element n] })).getElement m
        = ((s.updateRoot r rootEvictElems).updateElement n
        (fun x => { x with parent := some (ParentOfChild.root r) })).getElement m := rfl
    rw [h2, getElement_updateElement_ne _ _ _ _ (fun h => hm h.symm)]
    rfl
  · simp [Storage.updateRoot, Storage.updateElement]
  · simp [Storage.updateRoot, Storage.updateElement]

theorem set_attribute_spec (s : Storage) (p a : Nat)
    (hp : p < s.elements.length) (ha : a < s.attributes.length) :
    attributes (set_attribute s p a) p
      = (s.getElement p).attributes.filter
          (fun x => decide ((s.getAttribute x).name ≠ (s.getAttribute a).name)) ++ [a]
    ∧ attribute_parent (set_attribute s p a) a = some p
    ∧ (∀ b, b ≠ a → attribute_parent (set_attribute s p a) b = attribute_parent s b)
    ∧ (∀ b, ((set_attribute s p a).getAttribute b).name = (s.getAttribute b).name
         ∧ ((set_attribute s p a).getAttribute b).value = (s.getAttribute b).value)
    ∧ (set_attribute s p a).elements.length = s.elements.length
    ∧ (set_attribute s p a).attributes.length = s.attributes.length := by
  have ha1 : a < (s.updateElement p (fun ed => { ed with attributes := ed.attributes.filter (fun x => decide ((s.getAttribute x).name ≠ (s.getAttribute a).name)) ++ [a] })).attributes.length := ha
  have hset : set_attribute s p a = (s.updateElement p (fun ed => { ed with attributes := ed.attributes.filter (fun x => decide ((s.getAttribute x).name ≠ (s.getAttribute a).name)) ++ [a] })).updateAttribute a (fun ad => { ad with parent := some p }) := rfl
  rw [hset]
  have h2 : ∀ g : Attribute → Attribute, ∀ m : Nat, ∀ t : Storage,
      (t.updateAttribute a g).getElement m = t.getElement m := fun _ _ _ => rfl
  refine ⟨?_, ?_, ?_, ?_, ?_, ?_⟩
  · show (((_ : Storage).updateAttribute a _).getElement p).attributes = _
    rw [h2, getElement_updateElement_self _ _ _ hp]
  · show ((_ : Storage).getAttribute a).parent = _
    rw [getAttribute_updateAttribute_self _ _ _ ha1]
  · intro b hb
    show ((_ : Storage).getAttribute b).parent = _
    rw [getAttribute_updateAttribute_ne _ _ _ _ (fun h => hb h.symm)]
    rfl
  · intro b
    by_cases hb : b = a
    · subst hb
      rw [getAttribute_updateAttribute_self _ _ _ ha1]
      exact ⟨rfl, rfl⟩
    · rw [getAttribute_updateAttribute_ne _ _ _ _ (fun h => hb h.symm)]
      exact ⟨rfl, rfl⟩
  · simp [Storage.updateElement, Storage.updateAttribute]
  · simp [Storage.updateElement, Storage.updateAttribute]

/-- A freshly created element record, as allocated by `create_element`. -/
def freshElement (q : QName) : Element :=
  { name := q, preferred_pfx := none, children := [], parent := none, attributes := [], pfx_to_namespace := [] }

/-! ## Scenario: root element displacement (claims C3, C1, C4, C5) -/

/-- Spec scenario *Root Element displacement*: fresh root `r`, fresh
elements `e1`, `e2`; `append_root_child(e1)`; `append_root_child(e2)`.
Returns (final storage, r, e1, e2). -/
def rootDisplacementScenario (s0 : Storage) (q1 q2 : QName) : Storage × Nat × Nat × Nat :=
  let p1 := create_root s0
  let p2 := create_element p1.1 q1
  let p3 := create_element p2.1 q2
  let s4 := append_root_child p3.1 p1.2 (.element p2.2)
  let s5 := append_root_child s4 p1.2 (.element p3.2)
  (s5, p1.2, p2.2, p3.2)

/-- C3 (amended): after appending fresh elements e1 then e2 to a fresh
root r, root_children(r) = [e2], but e1's parent field still points at r
(`ChildOfRoot::replace_parent` evicts the displaced element from the
children list without clearing its parent), so e1 is not an orphan. -/
theorem c3_root_element_displacement (s0 : Storage) (q1 q2 : QName) :
    root_children (rootDisplacementScenario s0 q1 q2).1 (rootDisplacementScenario s0 q1 q2).2.1
      = [.element (rootDisplacementScenario s0 q1 q2).2.2.2]
    ∧ element_parent (rootDisplacementScenario s0 q1 q2).1
        (rootDisplacementScenario s0 q1 q2).2.2.1
      = some (.root (rootDisplacementScenario s0 q1 q2).2.1) := by
  show root_children
        (append_root_child
          (append_root_child ((create_element ((create_element ((create_root s0).1) q1).1) q2).1)
            s0.roots.length (.element s0.elements.length))
          s0.roots.length (.element (s0.elements ++ [freshElement q1]).length))
        s0.roots.length
      = [.element (s0.elements ++ [freshElement q1]).length]
    ∧ element_parent
        (append_root_child
          (append_root_child ((create_element ((create_element ((create_root s0).1) q1).1) q2).1)
            s0.roots.length (.element s0.elements.length))
          s0.roots.length (.element (s0.elements ++ [freshElement q1]).length))
        s0.elements.length
      = some (.root s0.roots.length)
  set s3 := (create_element ((create_element ((create_root s0).1) q1).1) q2).1 with hs3def
  set r := s0.roots.length with hrdef
  set e1 := s0.elements.length with he1def
  set e2 := (s0.elements ++ [freshElement q1]).length with he2def
  have hE2 : e2 = e1 + 1 := by rw [he2def, he1def]; simp
  have hroots3 : s3.roots = s0.roots ++ [{ children := [] }] := rfl
  have helems3 : s3.elements = (s0.elements ++ [freshElement q1]) ++ [freshElement q2] := rfl
  have hr3 : r < s3.roots.length := by rw [hroots3, hrdef]; simp
  have he13 : e1 < s3.elements.length := by rw [helems3, he1def]; simp
  have he23 : e2 < s3.elements.length := by rw [helems3, hE2, he1def]; simp
  have hge1 : s3.getElement e1 = freshElement q1 := by
    show s3.elements.getD e1 default = _
    rw [helems3, lx_getD_append_left _ _ _ _ (by rw [he1def]; simp), he1def]
    exact lx_getD_append_len _ _ _ _
  have hge2 : s3.getElement e2 = freshElement q2 := by
    show s3.elements.getD e2 default = _
    rw [helems3, he2def]
    exact lx_getD_append_len _ _ _ _
  have hgr3 : s3.getRoot r = { children := [] } := by
    show s3.roots.getD r default = _
    rw [hroots3, hrdef]
    exact lx_getD_append_len _ _ _ _
  obtain ⟨h41, h42, h43, h44, h45⟩ :=
    append_root_child_elem s3 r e1 hr3 he13 (by rw [hge1]; rfl)
  set s4 := append_root_child s3 r (.element e1) with hs4def
  have hpar24 : (s4.getElement e2).parent = none := by
    have h := h43 e2 (by omega)
    simp only [element_parent] at h
    rw [h, hge2]
    rfl
  have hr4 : r < s4.roots.length := by rw [h44]; exact hr3
  have he24 : e2 < s4.elements.length := by rw [h45]; exact he23
  obtain ⟨h51, h52, h53, _, _⟩ := append_root_child_elem s4 r e2 hr4 he24 hpar24
  constructor
  · rw [h51]
    simp only [root_children] at h41
    rw [h41, hgr3]
    simp [ChildOfRoot.is_element]
  · rw [h53 e1 (by omega), h42]

/-- C3's concrete failing run, built from the empty storage through the
public operations. -/
def cexDisplaced : Storage :=
  applyOps [.createRoot, .createElement ⟨none, "a"⟩, .createElement ⟨none, "b"⟩,
    .appendRootChild 0 (.element 0), .appendRootChild 0 (.element 1)] emptyStorage

/-! ## Scenario: single attribute replacement (claim C2) -/

/-- A freshly created attribute record, as allocated by `create_attribute`. -/
def freshAttribute (q : QName) (v : String) : Attribute :=
  { name := q, preferred_pfx := none, value := v, parent := none }

/-- Spec scenario *Single attribute replacement*: fresh element `e`,
fresh attributes `a1`, `a2` with one qualified name and values `v1`,
`v2`; `set_attribute(e, a1)`; `set_attribute(e, a2)`.
Returns (final storage, e, a1, a2). -/
def attributeReplacementScenario (s0 : Storage) (qe qa : QName) (v1 v2 : String) :
    Storage × Nat × Nat × Nat :=
  let p1 := create_element s0 qe
  let p2 := create_attribute p1.1 qa v1
  let p3 := create_attribute p2.1 qa v2
  let s4 := set_attribute p3.1 p1.2 p2.2
  let s5 := set_attribute s4 p1.2 p3.2
  (s5, p1.2, p2.2, p3.2)

/-- C2 (amended): setting two fresh attributes of one qualified name and
values v1 then v2 on a fresh element leaves exactly [a2] in the
attribute list with value v2, but a1's parent field still points at the
element (`set_attribute` does not clear the displaced attribute's
parent), not none. -/
theorem c2_attribute_replacement (s0 : Storage) (qe qa : QName) (v1 v2 : String) :
    attributes (attributeReplacementScenario s0 qe qa v1 v2).1
        (attributeReplacementScenario s0 qe qa v1 v2).2.1
      = [(attributeReplacementScenario s0 qe qa v1 v2).2.2.2]
    ∧ ((attributeReplacementScenario s0 qe qa v1 v2).1.getAttribute
        (attributeReplacementScenario s0 qe qa v1 v2).2.2.2).value = v2
    ∧ attribute_parent (attributeReplacementScenario s0 qe qa v1 v2).1
        (attributeReplacementScenario s0 qe qa v1 v2).2.2.1
      = some (attributeReplacementScenario s0 qe qa v1 v2).2.1 := by
  show attributes
        (set_attribute
          (set_attribute ((create_attribute ((create_attribute ((create_element s0 qe).1) qa v1).1) qa v2).1)
            s0.elements.length s0.attributes.length)
          s0.elements.length (s0.attributes ++ [freshAttribute qa v1]).length)
        s0.elements.length
      = [(s0.attributes ++ [freshAttribute qa v1]).length]
    ∧ ((set_attribute
          (set_attribute ((create_attribute ((create_attribute ((create_element s0 qe).1) qa v1).1) qa v2).1)
            s0.elements.length s0.attributes.length)
          s0.elements.length (s0.attributes ++ [freshAttribute qa v1]).length).getAttribute
        (s0.attributes ++ [freshAttribute qa v1]).length).value = v2
    ∧ attribute_parent
        (set_attribute
          (set_attribute ((create_attribute ((create_attribute ((create_element s0 qe).1) qa v1).1) qa v2).1)
            s0.elements.length s0.attributes.length)
          s0.elements.length (s0.attributes ++ [freshAttribute qa v1]).length)
        s0.attributes.length
      = some s0.elements.length
  set s3 := (create_attribute ((create_attribute ((create_element s0 qe).1) qa v1).1) qa v2).1 with hs3def
  set e := s0.elements.length with hedef
  set a1 := s0.attributes.length with ha1def
  set a2 := (s0.attributes ++ [freshAttribute qa v1]).length with ha2def
  have hA2 : a2 = a1 + 1 := by rw [ha2def, ha1def]; simp
  have helems3 : s3.elements = s0.elements ++ [freshElement qe] := rfl
  have hattrs3 : s3.attributes = (s0.attributes ++ [freshAttribute qa v1]) ++ [freshAttribute qa v2] := rfl
  have he3 : e < s3.elements.length := by rw [helems3, hedef]; simp
  have ha13 : a1 < s3.attributes.length := by rw [hattrs3, ha1def]; simp
  have ha23 : a2 < s3.attributes.length := by rw [hattrs3, hA2, ha1def]; simp
  have hge : s3.getElement e = freshElement qe := by
    show s3.elements.getD e default = _
    rw [helems3, hedef]
    exact lx_getD_append_len _ _ _ _
  have hga1 : s3.getAttribute a1 = freshAttribute qa v1 := by
    show s3.attributes.getD a1 default = _
    rw [hattrs3, lx_getD_append_left _ _ _ _ (by rw [ha1def]; simp), ha1def]
    exact lx_getD_append_len _ _ _ _
  have hga2 : s3.getAttribute a2 = freshAttribute qa v2 := by
    show s3.attributes.getD a2 default = _
    rw [hattrs3, ha2def]
    exact lx_getD_append_len _ _ _ _
  obtain ⟨k41, k42, k43, k44, k45, k46⟩ := set_attribute_spec s3 e a1 he3 ha13
  set s4 := set_attribute s3 e a1 with hs4def
  have hch4 : attributes s4 e = [a1] := by
    rw [k41, hge]
    rfl
  have he4 : e < s4.elements.length := by rw [k45]; exact he3
  have ha24 : a2 < s4.attributes.length := by rw [k46]; exact ha23
  obtain ⟨m41, m42, m43, m44, _, _⟩ := set_attribute_spec s4 e a2 he4 ha24
  refine ⟨?_, ?_, ?_⟩
  · rw [m41]
    simp only [attributes] at hch4
    rw [hch4]
    have hn1 : (s4.getAttribute a1).name = qa := by rw [(k44 a1).1, hga1]; rfl
    have hn2 : (s4.getAttribute a2).name = qa := by rw [(k44 a2).1, hga2]; rfl
    simp [hn1, hn2]
  · rw [(m44 a2).2, (k44 a2).2, hga2]
    rfl
  · rw [m43 a1 (by omega), k42]

/-- C2's concrete failing run, built from the empty storage through the
public operations. -/
def cexAttrReplaced : Storage :=
  applyOps [.createElement ⟨none, "a"⟩, .createAttribute ⟨none, "x"⟩ "1",
    .createAttribute ⟨none, "x"⟩ "2", .setAttribute 0 0, .setAttribute 0 1] emptyStorage

/-- C2 counterexample: in the concrete replacement run the displaced
attribute a1 = 0 still has parent e = 0, so the claimed conjunction
(… ∧ a1's parent is none) is false, even though the attribute list is
the claimed [a2]. -/
theorem c2_counterexample :
    attribute_parent cexAttrReplaced 0 = some 0
    ∧ ¬ (attributes cexAttrReplaced 0 = [1]
         ∧ (cexAttrReplaced.getAttribute 1).value = "2"
         ∧ attribute_parent cexAttrReplaced 0 = none) := by
  decide

/-- C3 counterexample: in the concrete displacement run
root_children = [e2] holds but e1's parent is some (root r), not none,
so the claimed conjunction is false. -/
theorem c3_counterexample :
    element_parent cexDisplaced 0 = some (.root 0)
    ∧ ¬ (root_children cexDisplaced 0 = [.element 1]
         ∧ element_parent cexDisplaced 0 = none) := by
  decide

/-- C4: the claim fails on the code — after `append_root_child(e1);
append_root_child(e2)` the displaced element e1 still has its parent
field set to the root but no longer occurs in the root's children, so
the `position(..).unwrap()` in `SiblingIter::of_root` panics (modelled
as `none`) when `element_preceding_siblings`/`element_following_siblings`
is called on e1. -/
theorem c4_displaced_element_sibling_lookup_panics :
    element_parent cexDisplaced 0 = some (.root 0)
    ∧ (ChildOfRoot.element 0) ∉ root_children cexDisplaced 0
    ∧ element_preceding_siblings cexDisplaced 0 = none
    ∧ element_following_siblings cexDisplaced 0 = none := by
  decide

/-- C1 counterexample: a node (element 0) whose parent field is set to
the root appears zero times — not exactly once — in the root's children
list, refuting the claimed bidirectional consistency. -/
theorem c1_counterexample :
    element_parent cexDisplaced 0 = some (.root 0)
    ∧ (ChildOfRoot.element 0) ∉ root_children cexDisplaced 0 := by
  decide

/-- C5 counterexample: element 0 has a parent, yet its sibling
iterators do not yield any sequence at all (the identity lookup in the
parent's child list panics), so the claimed concatenation identity
fails for it. -/
theorem c5_counterexample :
    element_parent cexDisplaced 0 = some (.root 0)
    ∧ ¬ (∃ pre fol, element_preceding_siblings cexDisplaced 0 = some pre
          ∧ element_following_siblings cexDisplaced 0 = some fol
          ∧ pre ++ [ChildOfElement.element 0] ++ fol
              = parentChildList cexDisplaced (.root 0)) := by
  refine ⟨by decide, ?_⟩
  rintro ⟨pre, fol, hpre, _⟩
  have hnone : element_preceding_siblings cexDisplaced 0 = none := by decide
  rw [hnone] at hpre
  exact Option.noConfusion hpre

/-! ## Sibling iteration: the concatenation identity (claim C5) -/

theorem listPosition_spec {α : Type} [DecidableEq α] (l : List α) (c : α) (h : c ∈ l) :
    ∃ i, listPosition (fun x => decide (x = c)) l = some i
      ∧ l.take i ++ c :: l.drop (i + 1) = l := by
  induction l with
  | nil => cases h
  | cons x xs ih =>
    by_cases hx : x = c
    · exact ⟨0, by simp [listPosition, hx], by simp [hx]⟩
    · have hmem : c ∈ xs := by
        rcases List.mem_cons.mp h with h1 | h1
        · exact absurd h1.symm hx
        · exact h1
      obtain ⟨i, hpos, hsplit⟩ := ih hmem
      refine ⟨i + 1, ?_, ?_⟩
      · simp [listPosition, hx, hpos]
      · simpa using hsplit

theorem of_root_spec (s : Storage) (r : Nat) (c : ChildOfRoot)
    (h : c ∈ (s.getRoot r).children) :
    ∃ pre fol, SiblingIter.of_root s .preceding r c = some pre
      ∧ SiblingIter.of_root s .following r c = some fol
      ∧ pre ++ [c.to_child_of_element] ++ fol
          = ((s.getRoot r).children).map ChildOfRoot.to_child_of_element := by
  obtain ⟨i, hpos, hsplit⟩ := listPosition_spec _ c h
  refine ⟨((s.getRoot r).children.take i).map ChildOfRoot.to_child_of_element,
    ((s.getRoot r).children.drop (i + 1)).map ChildOfRoot.to_child_of_element, ?_, ?_, ?_⟩
  · simp [SiblingIter.of_root, hpos]
  · simp [SiblingIter.of_root, hpos]
  · calc (((s.getRoot r).children.take i).map ChildOfRoot.to_child_of_element)
          ++ [c.to_child_of_element]
          ++ (((s.getRoot r).children.drop (i + 1)).map ChildOfRoot.to_child_of_element)
        = ((s.getRoot r).children.take i ++ c :: (s.getRoot r).children.drop (i + 1)).map
            ChildOfRoot.to_child_of_element := by simp
    _ = ((s.getRoot r).children).map ChildOfRoot.to_child_of_element := by rw [hsplit]

theorem of_element_spec (s : Storage) (p : Nat) (c : ChildOfElement)
    (h : c ∈ (s.getElement p).children) :
    ∃ pre fol, SiblingIter.of_element s .preceding p c = some pre
      ∧ SiblingIter.of_element s .following p c = some fol
      ∧ pre ++ [c] ++ fol = (s.getElement p).children := by
  obtain ⟨i, hpos, hsplit⟩ := listPosition_spec _ c h
  refine ⟨(s.getElement p).children.take i, (s.getElement p).children.drop (i + 1), ?_, ?_, ?_⟩
  · simp [SiblingIter.of_element, hpos]
  · simp [SiblingIter.of_element, hpos]
  · simpa using hsplit

/-- The root-child form of a node, used by the sibling constructors when
the parent is the root (unreachable for `text`, which never has a root
parent). -/
def corOf : ChildOfElement → ChildOfRoot
  | .element n => .element n
  | .text n => .element n
  | .comment n => .comment n
  | .pi n => .pi n

/-- The per-kind `*_preceding_siblings` operations, dispatched over the
element-child union of node kinds. -/
def node_preceding_siblings (s : Storage) : ChildOfElement → Option (List ChildOfElement)
  | .element n => element_preceding_siblings s n
  | .text n => text_preceding_siblings s n
  | .comment n => comment_preceding_siblings s n
  | .pi n => processing_instruction_preceding_siblings s n

/-- The per-kind `*_following_siblings` operations, dispatched over the
element-child union of node kinds. -/
def node_following_siblings (s : Storage) : ChildOfElement → Option (List ChildOfElement)
  | .element n => element_following_siblings s n
  | .text n => text_following_siblings s n
  | .comment n => comment_following_siblings s n
  | .pi n => processing_instruction_following_siblings s n

/-- Membership of a node in a parent's child (by-identity) list. -/
def memberOfParent (s : Storage) (x : ChildOfElement) : ParentOfChild → Prop
  | .root r => ∃ c : ChildOfRoot, c.to_child_of_element = x ∧ c ∈ (s.getRoot r).children
  | .element p => x ∈ (s.getElement p).children

theorem node_preceding_eq (s : Storage) (x : ChildOfElement) :
    node_preceding_siblings s x =
      match parentOfCOE s x with
      | some (.root r) => SiblingIter.of_root s .preceding r (corOf x)
      | some (.element p) => SiblingIter.of_element s .preceding p x
      | none => SiblingIter.dead := by
  cases x with
  | element n =>
    show element_preceding_siblings s n = _
    simp only [element_preceding_siblings, parentOfCOE]
    cases (s.getElement n).parent with
    | none => rfl
    | some P => cases P <;> rfl
  | text n =>
    show text_preceding_siblings s n = _
    simp only [text_preceding_siblings, parentOfCOE]
    cases (s.getText n).parent with
    | none => rfl
    | some p => rfl
  | comment n =>
    show comment_preceding_siblings s n = _
    simp only [comment_preceding_siblings, parentOfCOE]
    cases (s.getComment n).parent with
    | none => rfl
    | some P => cases P <;> rfl
  | pi n =>
    show processing_instruction_preceding_siblings s n = _
    simp only [processing_instruction_preceding_siblings, parentOfCOE]
    cases (s.getPI n).parent with
    | none => rfl
    | some P => cases P <;> rfl

theorem node_following_eq (s : Storage) (x : ChildOfElement) :
    node_following_siblings s x =
      match parentOfCOE s x with
      | some (.root r) => SiblingIter.of_root s .following r (corOf x)
      | some (.element p) => SiblingIter.of_element s .following p x
      | none => SiblingIter.dead := by
  cases x with
  | element n =>
    show element_following_siblings s n = _
    simp only [element_following_siblings, parentOfCOE]
    cases (s.getElement n).parent with
    | none => rfl
    | some P => cases P <;> rfl
  | text n =>
    show text_following_siblings s n = _
    simp only [text_following_siblings, parentOfCOE]
    cases (s.getText n).parent with
    | none => rfl
    | some p => rfl
  | comment n =>
    show comment_following_siblings s n = _
    simp only [comment_following_siblings, parentOfCOE]
    cases (s.getComment n).parent with
    | none => rfl
    | some P => cases P <;> rfl
  | pi n =>
    show processing_instruction_following_siblings s n = _
    simp only [processing_instruction_following_siblings, parentOfCOE]
    cases (s.getPI n).parent with
    | none => rfl
    | some P => cases P <;> rfl

/-- C5 (amended): for any node whose parent field is set AND which
actually occurs in that parent's child list (the displaced-element
counterexample shows the occurrence is not implied), the sibling
sequences exist and preceding ++ [N] ++ following equals the parent's
child list in document order; a node with no parent yields two empty
sequences. -/
theorem c5_sibling_concatenation (s : Storage) (x : ChildOfElement) :
    (∀ P, parentOfCOE s x = some P → memberOfParent s x P →
      ∃ pre fol,
        node_preceding_siblings s x = some pre
        ∧ node_following_siblings s x = some fol
        ∧ pre ++ [x] ++ fol = parentChildList s P)
    ∧ (parentOfCOE s x = none →
        node_preceding_siblings s x = some [] ∧ node_following_siblings s x = some []) := by
  constructor
  · intro P hP hmem
    rw [node_preceding_eq, node_following_eq, hP]
    cases P with
    | root r =>
      obtain ⟨c, hc, hcm⟩ := hmem
      have hcor : corOf x = c := by
        cases c <;> (cases hc; rfl)
      obtain ⟨pre, fol, h1, h2, h3⟩ := of_root_spec s r c hcm
      refine ⟨pre, fol, ?_, ?_, ?_⟩
      · show SiblingIter.of_root s .preceding r (corOf x) = some pre
        rw [hcor]; exact h1
      · show SiblingIter.of_root s .following r (corOf x) = some fol
        rw [hcor]; exact h2
      · simp only [parentChildList, root_children]
        rw [← hc]
        exact h3
    | element p =>
      obtain ⟨pre, fol, h1, h2, h3⟩ := of_element_spec s p x hmem
      exact ⟨pre, fol, h1, h2, by simpa [parentChildList, element_children] using h3⟩
  · intro hP
    rw [node_preceding_eq, node_following_eq, hP]
    exact ⟨rfl, rfl⟩

/-- The sibling round-trip scenario: element 0 with text children
0, 1, 2, 3 appended in order. -/
def sibState : Storage :=
  applyOps [.createElement ⟨none, "e"⟩, .createText "t1", .createText "t2", .createText "t3",
    .createText "t4", .appendElementChild 0 (.text 0), .appendElementChild 0 (.text 1),
    .appendElementChild 0 (.text 2), .appendElementChild 0 (.text 3)] emptyStorage

theorem c5_witness :
    (∃ pre fol,
      node_preceding_siblings sibState (.text 2) = some pre
      ∧ node_following_siblings sibState (.text 2) = some fol
      ∧ pre ++ [ChildOfElement.text 2] ++ fol = parentChildList sibState (.element 0))
    ∧ (node_preceding_siblings sibState (.text 4) = some []
       ∧ node_following_siblings sibState (.text 4) = some []) :=
  ⟨(c5_sibling_concatenation sibState (.text 2)).1 (.element 0) (by decide)
      (by show ChildOfElement.text 2 ∈ (sibState.getElement 0).children; decide),
   (c5_sibling_concatenation sibState (.text 4)).2 (by decide)⟩

/-! ## Namespace resolution lemmas (claims C6, C7, C8) -/

theorem hmGet_hmInsert (m : List (String × String)) (k v : String) :
    hmGet (hmInsert m k v) k = some v := by
  by_cases hany : m.any (fun kv => decide (kv.1 = k)) = true
  · rw [hmInsert, if_pos hany]
    induction m with
    | nil => simp at hany
    | cons kv m ih =>
      by_cases h1 : kv.1 = k
      · simp [hmGet, List.find?, h1]
      · have hany2 : m.any (fun kv => decide (kv.1 = k)) = true := by
          rcases List.any_eq_true.mp hany with ⟨x, hx, hpx⟩
          rcases List.mem_cons.mp hx with h2 | h2
          · subst h2; simp [h1] at hpx
          · exact List.any_eq_true.mpr ⟨x, h2, hpx⟩
        have := ih hany2
        simpa [hmGet, List.find?, h1] using this
  · rw [hmInsert, if_neg hany]
    have hnone : m.find? (fun kv => decide (kv.1 = k)) = none := by
      rw [List.find?_eq_none]
      intro x hx hpx
      exact hany (List.any_eq_true.mpr ⟨x, hx, hpx⟩)
    rw [hmGet, List.find?_append, hnone]
    simp [List.find?]

/-- The ancestor walk of `element_namespace_uri_for_prefix` refines a
first-match lookup along the inclusive element chain whenever the walk
terminates within the fuel. -/
theorem nsUriForPfxAux_eq_findSome (s : Storage) (p : String) :
    ∀ fuel e, chainStopsAux s fuel e = true →
      nsUriForPfxAux s p fuel e
        = (elemChainAux s fuel e).findSome?
            (fun a => hmGet (s.getElement a).pfx_to_namespace p) := by
  intro fuel
  induction fuel with
  | zero => intro e h; simp [chainStopsAux] at h
  | succ fuel ih =>
    intro e h
    rw [nsUriForPfxAux, elemChainAux, List.findSome?_cons]
    cases hget : hmGet (s.getElement e).pfx_to_namespace p with
    | some uri => rfl
    | none =>
      rw [chainStopsAux] at h
      cases hpar : (s.getElement e).parent with
      | none => rfl
      | some P =>
        cases P with
        | root q => rfl
        | element q => rw [hpar] at h; exact ih q h

/-- C6: whenever the ancestor walk from E terminates (always, absent
parent cycles), `namespace_uri_for_prefix(E, p)` equals the first
binding of p found along the inclusive element chain walked from E
through Element parents — the nearest binder wins, and the result is
none when no element of the chain binds p. -/
theorem c6_namespace_uri_nearest_binding (s : Storage) (e : Nat) (p : String)
    (h : ChainComplete s e) :
    element_namespace_uri_for_pfx s e p
      = (elemChain s e).findSome? (fun a => hmGet (s.getElement a).pfx_to_namespace p) :=
  nsUriForPfxAux_eq_findSome s p (s.elements.length + 1) e h

/-- The namespace-shadowing scenario: elements 0 (outer) and 1 (inner),
parent(1) = 0, with `p → U1` on the outer and `p → U2` on the inner. -/
def nsState : Storage :=
  applyOps [.createElement ⟨none, "o"⟩, .createElement ⟨none, "i"⟩,
    .appendElementChild 0 (.element 1), .elementRegisterPfx 0 "p" "U1",
    .elementRegisterPfx 1 "p" "U2"] emptyStorage

theorem c6_witness :
    ChainComplete nsState 1
    ∧ element_namespace_uri_for_pfx nsState 1 "p"
        = (elemChain nsState 1).findSome?
            (fun a => hmGet (nsState.getElement a).pfx_to_namespace "p")
    ∧ element_namespace_uri_for_pfx nsState 1 "p" = some "U2"
    ∧ element_namespace_uri_for_pfx nsState 0 "p" = some "U1" :=
  ⟨by decide, c6_namespace_uri_nearest_binding nsState 1 "p" (by decide), by decide, by decide⟩

/-! ### namespaces_in_scope (claims C7, C8) -/

/-- All local bindings along the walked element chain, nearest first. -/
def collectBindings (s : Storage) : Nat → Nat → List (String × String)
  | 0, _ => []
  | fuel + 1, e =>
    (s.getElement e).pfx_to_namespace ++
      (match (s.getElement e).parent with
       | some (.element q) => collectBindings s fuel q
       | _ => [])

/-- The prefixes of an emitted binding list are pairwise distinct. -/
def keysNodup (l : List (String × String)) : Prop := (l.map Prod.fst).Nodup

theorem nsInScopeAux_eq_foldl (s : Storage) :
    ∀ fuel e acc, nsInScopeAux s fuel e acc = (collectBindings s fuel e).foldl insertNS acc := by
  intro fuel
  induction fuel with
  | zero => intro e acc; rfl
  | succ fuel ih =>
    intro e acc
    rw [nsInScopeAux, collectBindings, List.foldl_append]
    cases hpar : (s.getElement e).parent with
    | none => simp
    | some P =>
      cases P with
      | root q => simp
      | element q => exact ih q _

theorem foldl_insertNS_decomp (l : List (String × String)) :
    ∀ acc, ∃ t, l.foldl insertNS acc = acc ++ t ∧ t.Sublist l := by
  induction l with
  | nil => exact fun acc => ⟨[], by simp, List.nil_sublist _⟩
  | cons x xs ih =>
    intro acc
    rw [List.foldl_cons]
    obtain ⟨t, ht, hsub⟩ := ih (insertNS acc x)
    by_cases hx : acc.any (fun ns => decide (ns.1 = x.1)) = true
    · refine ⟨t, ?_, hsub.cons x⟩
      rw [ht, insertNS, if_pos hx]
    · refine ⟨x :: t, ?_, hsub.cons₂ x⟩
      rw [ht, insertNS, if_neg hx]
      simp

theorem insertNS_keysNodup (acc : List (String × String)) (pu : String × String)
    (h : keysNodup acc) : keysNodup (insertNS acc pu) := by
  rw [insertNS]
  by_cases hx : acc.any (fun ns => decide (ns.1 = pu.1)) = true
  · rw [if_pos hx]; exact h
  · rw [if_neg hx]
    have hnotin : pu.1 ∉ acc.map Prod.fst := by
      intro hmem
      rcases List.mem_map.mp hmem with ⟨ns, hns, heq⟩
      exact hx (List.any_eq_true.mpr ⟨ns, hns, by simp [heq]⟩)
    unfold keysNodup at h ⊢
    rw [List.map_append]
    exact lx_nodup_append_single _ _ (by simpa using hnotin) h

theorem foldl_insertNS_keysNodup (l : List (String × String)) :
    ∀ acc, keysNodup acc → keysNodup (l.foldl insertNS acc) := by
  induction l with
  | nil => exact fun acc h => h
  | cons x xs ih =>
    intro acc h
    rw [List.foldl_cons]
    exact ih _ (insertNS_keysNodup acc x h)

/-- The emitted tail is ordered by the chain: a (possibly filtered)
block of the nearest element's local bindings, then a block from its
parent, and so on outward. -/
def OrderedByChain (s : Storage) : List (String × String) → List Nat → Prop
  | res, [] => res = []
  | res, e :: rest =>
      ∃ t u, res = t ++ u ∧ t.Sublist (s.getElement e).pfx_to_namespace
        ∧ OrderedByChain s u rest

theorem nsInScopeAux_ordered (s : Storage) :
    ∀ fuel e acc, ∃ rest, nsInScopeAux s fuel e acc = acc ++ rest
      ∧ OrderedByChain s rest (elemChainAux s fuel e) := by
  intro fuel
  induction fuel with
  | zero => exact fun e acc => ⟨[], by simp [nsInScopeAux, elemChainAux, OrderedByChain], rfl⟩
  | succ fuel ih =>
    intro e acc
    rw [nsInScopeAux, elemChainAux]
    obtain ⟨t, ht, hsub⟩ := foldl_insertNS_decomp (s.getElement e).pfx_to_namespace acc
    cases hpar : (s.getElement e).parent with
    | none =>
      refine ⟨t, ht, ?_⟩
      exact ⟨t, [], by simp, hsub, rfl⟩
    | some P =>
      cases P with
      | root q =>
        refine ⟨t, ht, ?_⟩
        exact ⟨t, [], by simp, hsub, rfl⟩
      | element q =>
        obtain ⟨u, hu, hord⟩ := ih q ((s.getElement e).pfx_to_namespace.foldl insertNS acc)
        refine ⟨t ++ u, ?_, ?_⟩
        · show nsInScopeAux s fuel q ((s.getElement e).pfx_to_namespace.foldl insertNS acc)
            = acc ++ (t ++ u)
          rw [hu, ht, List.append_assoc]
        · exact ⟨t, u, rfl, hsub, hord⟩

/-- C7: `namespaces_in_scope(E)` starts with the fixed
(`xml`, xml namespace URI) pair, its prefixes are pairwise distinct,
and the remainder is laid out in nearest-to-farthest order along the
Element-parent chain (a sublist of each element's local bindings in
turn). -/
theorem c7_namespaces_in_scope_order (s : Storage) (e : Nat) :
    (element_namespaces_in_scope s e).head? = some (xmlNsPfx, xmlNsUri)
    ∧ keysNodup (element_namespaces_in_scope s e)
    ∧ ∃ u, element_namespaces_in_scope s e = (xmlNsPfx, xmlNsUri) :: u
        ∧ OrderedByChain s u (elemChain s e) := by
  obtain ⟨rest, hrest, hord⟩ :=
    nsInScopeAux_ordered s (s.elements.length + 1) e [(xmlNsPfx, xmlNsUri)]
  have hres : element_namespaces_in_scope s e = (xmlNsPfx, xmlNsUri) :: rest := by
    rw [element_namespaces_in_scope, hrest]; rfl
  refine ⟨by rw [hres]; rfl, ?_, rest, hres, hord⟩
  · rw [element_namespaces_in_scope, nsInScopeAux_eq_foldl]
    exact foldl_insertNS_keysNodup _ _ (by simp [keysNodup])

/-- C8: rebinding `xml` on E via `element_register_prefix` is ignored by
the in-scope iteration — it still starts with the fixed pair and never
emits the rebound pair — while `namespace_uri_for_prefix(E, "xml")`
honors the nearest local binding and returns the rebound URI. -/
theorem c8_xml_rebinding_asymmetry (s : Storage) (e : Nat) (u : String)
    (he : e < s.elements.length) (hu : u ≠ xmlNsUri) :
    (element_namespaces_in_scope (element_register_pfx s e xmlNsPfx u) e).head?
        = some (xmlNsPfx, xmlNsUri)
    ∧ (xmlNsPfx, u) ∉ element_namespaces_in_scope (element_register_pfx s e xmlNsPfx u) e
    ∧ element_namespace_uri_for_pfx (element_register_pfx s e xmlNsPfx u) e xmlNsPfx
        = some u := by
  set s2 := element_register_pfx s e xmlNsPfx u with hs2
  obtain ⟨rest, hrest, _⟩ :=
    nsInScopeAux_ordered s2 (s2.elements.length + 1) e [(xmlNsPfx, xmlNsUri)]
  have hres : element_namespaces_in_scope s2 e = (xmlNsPfx, xmlNsUri) :: rest := by
    rw [element_namespaces_in_scope, hrest]; rfl
  have hnodup : keysNodup (element_namespaces_in_scope s2 e) := by
    rw [element_namespaces_in_scope, nsInScopeAux_eq_foldl]
    exact foldl_insertNS_keysNodup _ _ (by simp [keysNodup])
  refine ⟨by rw [hres]; rfl, ?_, ?_⟩
  · intro hmem
    rw [hres] at hmem hnodup
    rcases List.mem_cons.mp hmem with h1 | h1
    · exact hu (congrArg Prod.snd h1)
    · unfold keysNodup at hnodup
      rw [List.map_cons] at hnodup
      rcases List.nodup_cons.mp hnodup with ⟨hhead, _⟩
      exact hhead (List.mem_map.mpr ⟨(xmlNsPfx, u), h1, rfl⟩)
  · have hge : s2.getElement e = { s.getElement e with pfx_to_namespace := hmInsert (s.getElement e).pfx_to_namespace xmlNsPfx u } := by
      rw [hs2]
      exact getElement_updateElement_self s e _ he
    have hlen : s2.elements.length = s.elements.length := by
      rw [hs2]; simp [element_register_pfx, Storage.updateElement]
    rw [element_namespace_uri_for_pfx, hlen, nsUriForPfxAux, hge, hmGet_hmInsert]

theorem c8_witness :
    (element_namespaces_in_scope (element_register_pfx nsState 1 xmlNsPfx "U") 1).head?
        = some (xmlNsPfx, xmlNsUri)
    ∧ (xmlNsPfx, "U") ∉ element_namespaces_in_scope (element_register_pfx nsState 1 xmlNsPfx "U") 1
    ∧ element_namespace_uri_for_pfx (element_register_pfx nsState 1 xmlNsPfx "U") 1 xmlNsPfx
        = some "U" :=
  c8_xml_rebinding_asymmetry nsState 1 "U" (by decide) (by decide)

/-! ## Root contains at most one Element child (claim C9) -/

/-- Every root's children list contains at most one `Element`. -/
def AtMostOneRootElem (s : Storage) : Prop :=
  ∀ r, ((s.getRoot r).children).countP ChildOfRoot.is_element ≤ 1

theorem updateRoot_oob (s : Storage) (i : Nat) (f : Root → Root)
    (h : s.roots.length ≤ i) : s.updateRoot i f = s := by
  cases s
  simp only [Storage.updateRoot]
  rw [lx_set_oob _ _ _ h]

theorem updateElement_oob (s : Storage) (i : Nat) (f : Element → Element)
    (h : s.elements.length ≤ i) : s.updateElement i f = s := by
  cases s
  simp only [Storage.updateElement]
  rw [lx_set_oob _ _ _ h]

theorem count_updateRoot_filter_le (s : Storage) (i : Nat) (q : ChildOfRoot → Bool) (r : Nat) :
    (((s.updateRoot i (fun rd => { rd with children := rd.children.filter q })).getRoot r).children).countP
        ChildOfRoot.is_element
      ≤ ((s.getRoot r).children).countP ChildOfRoot.is_element := by
  by_cases hlen : i < s.roots.length
  · by_cases hir : i = r
    · subst hir
      rw [getRoot_updateRoot_self _ _ _ hlen]
      exact lx_countP_filter_le _ _ _
    · rw [getRoot_updateRoot_ne _ _ _ _ hir]
  · rw [updateRoot_oob _ _ _ (Nat.le_of_not_lt hlen)]

theorem count_remove_from_prev_le (s : Storage) (c : ChildOfRoot) (prev : Option ParentOfChild)
    (r : Nat) :
    (((remove_from_prev s c prev).getRoot r).children).countP ChildOfRoot.is_element
      ≤ ((s.getRoot r).children).countP ChildOfRoot.is_element := by
  cases prev with
  | none => exact Nat.le_refl _
  | some P =>
    cases P with
    | root q => exact count_updateRoot_filter_le s q _ r
    | element q => exact Nat.le_refl _

theorem getRoot_set_parent_field (s : Storage) (c : ChildOfRoot) (p : ParentOfChild) (r : Nat) :
    (set_parent_field s c p).getRoot r = s.getRoot r := by
  cases c <;> rfl

theorem count_replace_parent_field_le (s : Storage) (c : ChildOfRoot) (p : ParentOfChild)
    (r : Nat) :
    (((replace_parent_field s c p).getRoot r).children).countP ChildOfRoot.is_element
      ≤ ((s.getRoot r).children).countP ChildOfRoot.is_element := by
  rw [replace_parent_field, getRoot_set_parent_field]
  exact count_remove_from_prev_le s c _ r

theorem lx_getD_oob {α : Type} (l : List α) (i : Nat) (d : α) (h : l.length ≤ i) :
    l.getD i d = d := by
  induction l generalizing i with
  | nil => rfl
  | cons x xs ih =>
    cases i with
    | zero => simp at h
    | succ j => exact ih j (by simpa using h)

theorem roots_set_parent_field (s : Storage) (c : ChildOfRoot) (p : ParentOfChild) :
    (set_parent_field s c p).roots = s.roots := by
  cases c <;> rfl

theorem roots_length_remove_from_prev (s : Storage) (c : ChildOfRoot)
    (prev : Option ParentOfChild) : (remove_from_prev s c prev).roots.length = s.roots.length := by
  cases prev with
  | none => rfl
  | some P =>
    cases P with
    | root q => simp [remove_from_prev, Storage.updateRoot]
    | element q => rfl

theorem roots_length_replace_parent_field (s : Storage) (c : ChildOfRoot) (p : ParentOfChild) :
    (replace_parent_field s c p).roots.length = s.roots.length := by
  rw [replace_parent_field, roots_set_parent_field]
  exact roots_length_remove_from_prev s c _

theorem countP_singleton_elem (n : Nat) :
    ([ChildOfRoot.element n]).countP ChildOfRoot.is_element = 1 := by
  simp [List.countP_cons, ChildOfRoot.is_element]

theorem countP_singleton_comment (n : Nat) :
    ([ChildOfRoot.comment n]).countP ChildOfRoot.is_element = 0 := by
  simp [List.countP_cons, ChildOfRoot.is_element]

theorem countP_singleton_pi (n : Nat) :
    ([ChildOfRoot.pi n]).countP ChildOfRoot.is_element = 0 := by
  simp [List.countP_cons, ChildOfRoot.is_element]

theorem count_append_root_child (s : Storage) (root : Nat) (c : ChildOfRoot)
    (h : AtMostOneRootElem s) : AtMostOneRootElem (append_root_child s root c) := by
  by_cases hlen : root < s.roots.length
  · cases c with
    | element n =>
      intro r
      show ((((replace_parent_field (s.updateRoot root rootEvictElems) (.element n)
          (.root root)).updateRoot root
          (fun rd => { rd with children := rd.children ++ [ChildOfRoot.element n] })).getRoot
          r).children).countP ChildOfRoot.is_element ≤ 1
      have hlen1 : root < (s.updateRoot root rootEvictElems).roots.length := by
        simpa [Storage.updateRoot] using hlen
      have hlen2 : root < (replace_parent_field (s.updateRoot root rootEvictElems)
          (.element n) (.root root)).roots.length := by
        rw [roots_length_replace_parent_field]
        exact hlen1
      have hcount0 : (((s.updateRoot root rootEvictElems).getRoot root).children).countP
          ChildOfRoot.is_element = 0 := by
        rw [getRoot_updateRoot_self _ _ _ hlen]
        exact lx_countP_filter_not _ _
      by_cases hr : r = root
      · subst hr
        rw [getRoot_updateRoot_self _ _ _ hlen2, List.countP_append, countP_singleton_elem]
        have hle : (((replace_parent_field (s.updateRoot r rootEvictElems) (.element n)
            (.root r)).getRoot r).children).countP ChildOfRoot.is_element
            ≤ (((s.updateRoot r rootEvictElems).getRoot r).children).countP
                ChildOfRoot.is_element :=
          count_replace_parent_field_le _ _ _ r
        omega
      · rw [getRoot_updateRoot_ne _ _ _ _ (fun hh => hr hh.symm)]
        calc (((replace_parent_field (s.updateRoot root rootEvictElems) (.element n)
              (.root root)).getRoot r).children).countP ChildOfRoot.is_element
            ≤ (((s.updateRoot root rootEvictElems).getRoot r).children).countP
                ChildOfRoot.is_element := count_replace_parent_field_le _ _ _ r
          _ = ((s.getRoot r).children).countP ChildOfRoot.is_element := by
              rw [getRoot_updateRoot_ne _ _ _ _ (fun hh => hr hh.symm)]
          _ ≤ 1 := h r
    | comment n =>
      intro r
      show (((replace_parent_field s (.comment n) (.root root)).updateRoot root
          (fun rd => { rd with children := rd.children ++ [ChildOfRoot.comment n] })).getRoot
          r).children.countP ChildOfRoot.is_element ≤ 1
      have hlen2 : root < (replace_parent_field s (.comment n) (.root root)).roots.length := by
        rw [roots_length_replace_parent_field]
        exact hlen
      by_cases hr : r = root
      · subst hr
        rw [getRoot_updateRoot_self _ _ _ hlen2, List.countP_append, countP_singleton_comment]
        calc (((replace_parent_field s (.comment n) (.root r)).getRoot r).children).countP
              ChildOfRoot.is_element + 0
            = (((replace_parent_field s (.comment n) (.root r)).getRoot r).children).countP
              ChildOfRoot.is_element := by omega
          _ ≤ ((s.getRoot r).children).countP ChildOfRoot.is_element :=
              count_replace_parent_field_le _ _ _ r
          _ ≤ 1 := h r
      · rw [getRoot_updateRoot_ne _ _ _ _ (fun hh => hr hh.symm)]
        calc (((replace_parent_field s (.comment n) (.root root)).getRoot r).children).countP
              ChildOfRoot.is_element
            ≤ ((s.getRoot r).children).countP ChildOfRoot.is_element :=
              count_replace_parent_field_le _ _ _ r
          _ ≤ 1 := h r
    | pi n =>
      intro r
      show (((replace_parent_field s (.pi n) (.root root)).updateRoot root
          (fun rd => { rd with children := rd.children ++ [ChildOfRoot.pi n] })).getRoot
          r).children.countP ChildOfRoot.is_element ≤ 1
      have hlen2 : root < (replace_parent_field s (.pi n) (.root root)).roots.length := by
        rw [roots_length_replace_parent_field]
        exact hlen
      by_cases hr : r = root
      · subst hr
        rw [getRoot_updateRoot_self _ _ _ hlen2, List.countP_append, countP_singleton_pi]
        calc (((replace_parent_field s (.pi n) (.root r)).getRoot r).children).countP
              ChildOfRoot.is_element + 0
            = (((replace_parent_field s (.pi n) (.root r)).getRoot r).children).countP
              ChildOfRoot.is_element := by omega
          _ ≤ ((s.getRoot r).children).countP ChildOfRoot.is_element :=
              count_replace_parent_field_le _ _ _ r
          _ ≤ 1 := h r
      · rw [getRoot_updateRoot_ne _ _ _ _ (fun hh => hr hh.symm)]
        calc (((replace_parent_field s (.pi n) (.root root)).getRoot r).children).countP
              ChildOfRoot.is_element
            ≤ ((s.getRoot r).children).countP ChildOfRoot.is_element :=
              count_replace_parent_field_le _ _ _ r
          _ ≤ 1 := h r
  · have hoob := Nat.le_of_not_lt hlen
    cases c with
    | element n =>
      intro r
      show ((((replace_parent_field (s.updateRoot root rootEvictElems) (.element n)
          (.root root)).updateRoot root
          (fun rd => { rd with children := rd.children ++ [ChildOfRoot.element n] })).getRoot
          r).children).countP ChildOfRoot.is_element ≤ 1
      rw [updateRoot_oob s root rootEvictElems hoob]
      rw [updateRoot_oob _ root _ (by rw [roots_length_replace_parent_field]; exact hoob)]
      calc (((replace_parent_field s (.element n) (.root root)).getRoot r).children).countP
            ChildOfRoot.is_element
          ≤ ((s.getRoot r).children).countP ChildOfRoot.is_element :=
            count_replace_parent_field_le _ _ _ r
        _ ≤ 1 := h r
    | comment n =>
      intro r
      show (((replace_parent_field s (.comment n) (.root root)).updateRoot root
          (fun rd => { rd with children := rd.children ++ [ChildOfRoot.comment n] })).getRoot
          r).children.countP ChildOfRoot.is_element ≤ 1
      rw [updateRoot_oob _ root _ (by rw [roots_length_replace_parent_field]; exact hoob)]
      calc (((replace_parent_field s (.comment n) (.root root)).getRoot r).children).countP
            ChildOfRoot.is_element
          ≤ ((s.getRoot r).children).countP ChildOfRoot.is_element :=
            count_replace_parent_field_le _ _ _ r
        _ ≤ 1 := h r
    | pi n =>
      intro r
      show (((replace_parent_field s (.pi n) (.root root)).updateRoot root
          (fun rd => { rd with children := rd.children ++ [ChildOfRoot.pi n] })).getRoot
          r).children.countP ChildOfRoot.is_element ≤ 1
      rw [updateRoot_oob _ root _ (by rw [roots_length_replace_parent_field]; exact hoob)]
      calc (((replace_parent_field s (.pi n) (.root root)).getRoot r).children).countP
            ChildOfRoot.is_element
          ≤ ((s.getRoot r).children).countP ChildOfRoot.is_element :=
            count_replace_parent_field_le _ _ _ r
        _ ≤ 1 := h r

theorem count_coe_replace_parent_le (s : Storage) (c : ChildOfElement) (p : Nat) (r : Nat) :
    (((ChildOfElement.replace_parent s c p).getRoot r).children).countP ChildOfRoot.is_element
      ≤ ((s.getRoot r).children).countP ChildOfRoot.is_element := by
  cases c with
  | element n => exact count_replace_parent_field_le s (.element n) (.element p) r
  | comment n => exact count_replace_parent_field_le s (.comment n) (.element p) r
  | pi n => exact count_replace_parent_field_le s (.pi n) (.element p) r
  | text n =>
    simp only [ChildOfElement.replace_parent]
    cases hp : (s.getText n).parent with
    | none => exact Nat.le_refl _
    | some prev => exact Nat.le_refl _

theorem count_append_element_child (s : Storage) (p : Nat) (c : ChildOfElement)
    (h : AtMostOneRootElem s) : AtMostOneRootElem (append_element_child s p c) := by
  intro r
  calc (((append_element_child s p c).getRoot r).children).countP ChildOfRoot.is_element
      = (((ChildOfElement.replace_parent s c p).getRoot r).children).countP
          ChildOfRoot.is_element := rfl
    _ ≤ ((s.getRoot r).children).countP ChildOfRoot.is_element :=
        count_coe_replace_parent_le s c p r
    _ ≤ 1 := h r

theorem getRoot_create_root (s : Storage) (r : Nat) :
    ((create_root s).1).getRoot r
      = if r = s.roots.length then { children := [] } else s.getRoot r := by
  by_cases h1 : r < s.roots.length
  · rw [if_neg (by omega)]
    exact lx_getD_append_left _ _ _ _ h1
  · by_cases h2 : r = s.roots.length
    · subst h2
      rw [if_pos rfl]
      exact lx_getD_append_len _ _ _ _
    · rw [if_neg h2]
      show (s.roots ++ [({ children := [] } : Root)]).getD r default = s.roots.getD r default
      have hge : s.roots.length ≤ r := Nat.le_of_not_lt h1
      rw [lx_getD_oob _ _ _ (by simp; omega), lx_getD_oob _ _ _ hge]

theorem atMostOne_apply (s : Storage) (op : Op) (h : AtMostOneRootElem s) :
    AtMostOneRootElem (op.apply s) := by
  cases op with
  | createRoot =>
    intro r
    show ((((create_root s).1).getRoot r).children).countP ChildOfRoot.is_element ≤ 1
    rw [getRoot_create_root]
    by_cases hr : r = s.roots.length
    · rw [if_pos hr]
      exact Nat.zero_le 1
    · rw [if_neg hr]
      exact h r
  | createElement q => exact h
  | createAttribute q v => exact h
  | createText t => exact h
  | createComment t => exact h
  | createPI t v => exact h
  | elementSetName e q => exact h
  | elementRegisterPfx e p u => exact h
  | elementSetPreferredPfx e p => exact h
  | attributeSetPreferredPfx a p => exact h
  | textSetText t x => exact h
  | commentSetText c x => exact h
  | piSetTarget p x => exact h
  | piSetValue p x => exact h
  | appendRootChild root c => exact count_append_root_child s root c h
  | appendElementChild p c => exact count_append_element_child s p c h
  | setAttribute p a => exact h

theorem atMostOne_applyOps (ops : List Op) :
    ∀ s, AtMostOneRootElem s → AtMostOneRootElem (applyOps ops s) := by
  induction ops with
  | nil => exact fun s h => h
  | cons op rest ih => exact fun s h => ih _ (atMostOne_apply s op h)

/-- The order-preservation scenario: a Comment, then Element e1, then
Element e2 appended to a fresh root. -/
def orderScenarioState : Storage :=
  applyOps [.createRoot, .createComment "c", .createElement ⟨none, "a"⟩,
    .createElement ⟨none, "b"⟩, .appendRootChild 0 (.comment 0),
    .appendRootChild 0 (.element 0), .appendRootChild 0 (.element 1)] emptyStorage

/-- C9: after any finite sequence of operations, every root's children
list contains at most one Element; and the concrete run comment c, then
e1, then e2 yields root_children = [c, e2] (the comment keeps its place,
e1 is displaced). -/
theorem c9_root_single_element (ops : List Op) :
    (∀ r, (root_children (applyOps ops emptyStorage) r).countP ChildOfRoot.is_element ≤ 1)
    ∧ root_children orderScenarioState 0 = [.comment 0, .element 1] := by
  constructor
  · intro r
    exact atMostOne_applyOps ops emptyStorage (fun _ => Nat.zero_le 1) r
  · decide

/-! ## The forward parent/child invariant for children lists (claim C1) -/

/-- The forward half of the spec's bidirectional-consistency invariant,
restricted to children lists: every entry of a children list is a valid
handle whose parent field is the list's owner, and no list repeats an
entry.  (The converse half — parent field set implies list membership —
fails on the code; see the C1 counterexample.) -/
structure Inv (s : Storage) : Prop where
  rootMem : ∀ r, ∀ c ∈ (s.getRoot r).children,
    validCOR s c ∧ parentOfCOR s c = some (.root r)
  rootNodup : ∀ r, ((s.getRoot r).children).Nodup
  elemMem : ∀ e, ∀ c ∈ (s.getElement e).children,
    validCOE s c ∧ parentOfCOE s c = some (.element e)
  elemNodup : ∀ e, ((s.getElement e).children).Nodup

/-- A node (in element-child form) occurring in no children list. -/
def NotInLists (s : Storage) (x : ChildOfElement) : Prop :=
  (∀ r, ∀ c ∈ (s.getRoot r).children, c.to_child_of_element ≠ x)
  ∧ (∀ e, x ∉ (s.getElement e).children)

theorem toCOE_inj {c d : ChildOfRoot}
    (h : c.to_child_of_element = d.to_child_of_element) : c = d := by
  cases c <;> cases d <;> simp [ChildOfRoot.to_child_of_element] at h <;> simp [h]

theorem parentOfCOE_toCOE (s : Storage) (c : ChildOfRoot) :
    parentOfCOE s c.to_child_of_element = parentOfCOR s c := by
  cases c <;> rfl

theorem getRoot_oob (s : Storage) (r : Nat) (h : s.roots.length ≤ r) :
    s.getRoot r = default := lx_getD_oob _ _ _ h

theorem getElement_oob (s : Storage) (e : Nat) (h : s.elements.length ≤ e) :
    s.getElement e = default := lx_getD_oob _ _ _ h

theorem getElement_updateElement (s : Storage) (i : Nat) (f : Element → Element) (e : Nat) :
    (s.updateElement i f).getElement e
      = if i = e ∧ i < s.elements.length then f (s.getElement e) else s.getElement e := by
  by_cases hie : i = e
  · subst hie
    by_cases hlen : i < s.elements.length
    · rw [if_pos ⟨rfl, hlen⟩]
      exact getElement_updateElement_self _ _ _ hlen
    · rw [if_neg (fun hc => hlen hc.2), updateElement_oob _ _ _ (Nat.le_of_not_lt hlen)]
  · rw [if_neg (fun hc => hie hc.1), getElement_updateElement_ne _ _ _ _ hie]

theorem getRoot_updateRoot (s : Storage) (i : Nat) (f : Root → Root) (r : Nat) :
    (s.updateRoot i f).getRoot r
      = if i = r ∧ i < s.roots.length then f (s.getRoot r) else s.getRoot r := by
  by_cases hir : i = r
  · subst hir
    by_cases hlen : i < s.roots.length
    · rw [if_pos ⟨rfl, hlen⟩]
      exact getRoot_updateRoot_self _ _ _ hlen
    · rw [if_neg (fun hc => hlen hc.2), updateRoot_oob _ _ _ (Nat.le_of_not_lt hlen)]
  · rw [if_neg (fun hc => hir hc.1), getRoot_updateRoot_ne _ _ _ _ hir]

theorem updateText_oob (s : Storage) (i : Nat) (f : Text → Text)
    (h : s.texts.length ≤ i) : s.updateText i f = s := by
  cases s
  simp only [Storage.updateText]
  rw [lx_set_oob _ _ _ h]

theorem updateComment_oob (s : Storage) (i : Nat) (f : Comment → Comment)
    (h : s.comments.length ≤ i) : s.updateComment i f = s := by
  cases s
  simp only [Storage.updateComment]
  rw [lx_set_oob _ _ _ h]

theorem updatePI_oob (s : Storage) (i : Nat) (f : ProcessingInstruction → ProcessingInstruction)
    (h : s.processing_instructions.length ≤ i) : s.updatePI i f = s := by
  cases s
  simp only [Storage.updatePI]
  rw [lx_set_oob _ _ _ h]

theorem getText_updateText (s : Storage) (i : Nat) (f : Text → Text) (t : Nat) :
    (s.updateText i f).getText t
      = if i = t ∧ i < s.texts.length then f (s.getText t) else s.getText t := by
  by_cases hit : i = t
  · subst hit
    by_cases hlen : i < s.texts.length
    · rw [if_pos ⟨rfl, hlen⟩]
      exact getText_updateText_self _ _ _ hlen
    · rw [if_neg (fun hc => hlen hc.2), updateText_oob _ _ _ (Nat.le_of_not_lt hlen)]
  · rw [if_neg (fun hc => hit hc.1), getText_updateText_ne _ _ _ _ hit]

theorem getComment_updateComment (s : Storage) (i : Nat) (f : Comment → Comment) (c : Nat) :
    (s.updateComment i f).getComment c
      = if i = c ∧ i < s.comments.length then f (s.getComment c) else s.getComment c := by
  by_cases hic : i = c
  · subst hic
    by_cases hlen : i < s.comments.length
    · rw [if_pos ⟨rfl, hlen⟩]
      exact getComment_updateComment_self _ _ _ hlen
    · rw [if_neg (fun hc => hlen hc.2), updateComment_oob _ _ _ (Nat.le_of_not_lt hlen)]
  · rw [if_neg (fun hc => hic hc.1), getComment_updateComment_ne _ _ _ _ hic]

theorem getPI_updatePI (s : Storage) (i : Nat)
    (f : ProcessingInstruction → ProcessingInstruction) (p : Nat) :
    (s.updatePI i f).getPI p
      = if i = p ∧ i < s.processing_instructions.length then f (s.getPI p) else s.getPI p := by
  by_cases hip : i = p
  · subst hip
    by_cases hlen : i < s.processing_instructions.length
    · rw [if_pos ⟨rfl, hlen⟩]
      exact getPI_updatePI_self _ _ _ hlen
    · rw [if_neg (fun hc => hlen hc.2), updatePI_oob _ _ _ (Nat.le_of_not_lt hlen)]
  · rw [if_neg (fun hc => hip hc.1), getPI_updatePI_ne _ _ _ _ hip]

theorem parentOfCOR_updateElement (s : Storage) (i : Nat) (f : Element → Element)
    (hf : ∀ ed, (f ed).parent = ed.parent) (c : ChildOfRoot) :
    parentOfCOR (s.updateElement i f) c = parentOfCOR s c := by
  cases c with
  | element m =>
    show ((s.updateElement i f).getElement m).parent = (s.getElement m).parent
    rw [getElement_updateElement]
    by_cases hc : i = m ∧ i < s.elements.length
    · rw [if_pos hc, hf]
    · rw [if_neg hc]
  | comment m => rfl
  | pi m => rfl

theorem parentOfCOE_updateElement (s : Storage) (i : Nat) (f : Element → Element)
    (hf : ∀ ed, (f ed).parent = ed.parent) (x : ChildOfElement) :
    parentOfCOE (s.updateElement i f) x = parentOfCOE s x := by
  cases x with
  | element m =>
    show ((s.updateElement i f).getElement m).parent = (s.getElement m).parent
    rw [getElement_updateElement]
    by_cases hc : i = m ∧ i < s.elements.length
    · rw [if_pos hc, hf]
    · rw [if_neg hc]
  | text m => rfl
  | comment m => rfl
  | pi m => rfl

theorem childrenOf_updateElement (s : Storage) (i : Nat) (f : Element → Element)
    (hf : ∀ ed, (f ed).children = ed.children) (e : Nat) :
    ((s.updateElement i f).getElement e).children = (s.getElement e).children := by
  rw [getElement_updateElement]
  by_cases hc : i = e ∧ i < s.elements.length
  · rw [if_pos hc, hf]
  · rw [if_neg hc]

theorem validCOR_updateElement (s : Storage) (i : Nat) (f : Element → Element)
    (c : ChildOfRoot) : validCOR (s.updateElement i f) c ↔ validCOR s c := by
  cases c <;> simp [validCOR, Storage.updateElement]

theorem validCOE_updateElement (s : Storage) (i : Nat) (f : Element → Element)
    (x : ChildOfElement) : validCOE (s.updateElement i f) x ↔ validCOE s x := by
  cases x <;> simp [validCOE, Storage.updateElement]

theorem validCOR_updateRoot (s : Storage) (i : Nat) (f : Root → Root)
    (c : ChildOfRoot) : validCOR (s.updateRoot i f) c ↔ validCOR s c := by
  cases c <;> simp [validCOR, Storage.updateRoot]

theorem validCOE_updateRoot (s : Storage) (i : Nat) (f : Root → Root)
    (x : ChildOfElement) : validCOE (s.updateRoot i f) x ↔ validCOE s x := by
  cases x <;> simp [validCOE, Storage.updateRoot]

theorem parentOfCOR_updateRoot (s : Storage) (i : Nat) (f : Root → Root) (c : ChildOfRoot) :
    parentOfCOR (s.updateRoot i f) c = parentOfCOR s c := by
  cases c <;> rfl

theorem parentOfCOE_updateRoot (s : Storage) (i : Nat) (f : Root → Root) (x : ChildOfElement) :
    parentOfCOE (s.updateRoot i f) x = parentOfCOE s x := by
  cases x <;> rfl

theorem validCOR_updateText (s : Storage) (i : Nat) (f : Text → Text) (c : ChildOfRoot) :
    validCOR (s.updateText i f) c ↔ validCOR s c := by
  cases c <;> simp [validCOR, Storage.updateText]

theorem validCOE_updateText (s : Storage) (i : Nat) (f : Text → Text) (x : ChildOfElement) :
    validCOE (s.updateText i f) x ↔ validCOE s x := by
  cases x <;> simp [validCOE, Storage.updateText]

theorem validCOR_updateComment (s : Storage) (i : Nat) (f : Comment → Comment)
    (c : ChildOfRoot) : validCOR (s.updateComment i f) c ↔ validCOR s c := by
  cases c <;> simp [validCOR, Storage.updateComment]

theorem validCOE_updateComment (s : Storage) (i : Nat) (f : Comment → Comment)
    (x : ChildOfElement) : validCOE (s.updateComment i f) x ↔ validCOE s x := by
  cases x <;> simp [validCOE, Storage.updateComment]

theorem validCOR_updatePI (s : Storage) (i : Nat)
    (f : ProcessingInstruction → ProcessingInstruction) (c : ChildOfRoot) :
    validCOR (s.updatePI i f) c ↔ validCOR s c := by
  cases c <;> simp [validCOR, Storage.updatePI]

theorem validCOE_updatePI (s : Storage) (i : Nat)
    (f : ProcessingInstruction → ProcessingInstruction) (x : ChildOfElement) :
    validCOE (s.updatePI i f) x ↔ validCOE s x := by
  cases x <;> simp [validCOE, Storage.updatePI]

theorem inv_updateRoot_filter (s : Storage) (i : Nat) (q : ChildOfRoot → Bool) (hInv : Inv s) :
    Inv (s.updateRoot i (fun rd => { rd with children := rd.children.filter q })) := by
  refine ⟨?_, ?_, ?_, ?_⟩
  · intro r c hc
    rw [getRoot_updateRoot] at hc
    by_cases hcnd : i = r ∧ i < s.roots.length
    · rw [if_pos hcnd] at hc
      obtain ⟨hv, hp⟩ := hInv.rootMem r c (List.mem_filter.mp hc).1
      exact ⟨(validCOR_updateRoot _ _ _ _).mpr hv, by rw [parentOfCOR_updateRoot]; exact hp⟩
    · rw [if_neg hcnd] at hc
      obtain ⟨hv, hp⟩ := hInv.rootMem r c hc
      exact ⟨(validCOR_updateRoot _ _ _ _).mpr hv, by rw [parentOfCOR_updateRoot]; exact hp⟩
  · intro r
    rw [getRoot_updateRoot]
    by_cases hcnd : i = r ∧ i < s.roots.length
    · rw [if_pos hcnd]
      exact (hInv.rootNodup r).filter q
    · rw [if_neg hcnd]
      exact hInv.rootNodup r
  · intro e c hc
    obtain ⟨hv, hp⟩ := hInv.elemMem e c hc
    exact ⟨(validCOE_updateRoot _ _ _ _).mpr hv, by rw [parentOfCOE_updateRoot]; exact hp⟩
  · intro e
    exact hInv.elemNodup e

theorem inv_updateElement_filter (s : Storage) (i : Nat) (q : ChildOfElement → Bool)
    (hInv : Inv s) :
    Inv (s.updateElement i (fun ed => { ed with children := ed.children.filter q })) := by
  have hfp : ∀ ed : Element,
      ((fun ed : Element => { ed with children := ed.children.filter q }) ed).parent
        = ed.parent :=
    fun _ => rfl
  refine ⟨?_, ?_, ?_, ?_⟩
  · intro r c hc
    obtain ⟨hv, hp⟩ := hInv.rootMem r c hc
    exact ⟨(validCOR_updateElement _ _ _ _).mpr hv,
      by rw [parentOfCOR_updateElement _ _ _ hfp]; exact hp⟩
  · intro r
    exact hInv.rootNodup r
  · intro e c hc
    rw [getElement_updateElement] at hc
    by_cases hcnd : i = e ∧ i < s.elements.length
    · rw [if_pos hcnd] at hc
      obtain ⟨hv, hp⟩ := hInv.elemMem e c (List.mem_filter.mp hc).1
      exact ⟨(validCOE_updateElement _ _ _ _).mpr hv,
        by rw [parentOfCOE_updateElement _ _ _ hfp]; exact hp⟩
    · rw [if_neg hcnd] at hc
      obtain ⟨hv, hp⟩ := hInv.elemMem e c hc
      exact ⟨(validCOE_updateElement _ _ _ _).mpr hv,
        by rw [parentOfCOE_updateElement _ _ _ hfp]; exact hp⟩
  · intro e
    rw [getElement_updateElement]
    by_cases hcnd : i = e ∧ i < s.elements.length
    · rw [if_pos hcnd]
      exact (hInv.elemNodup e).filter q
    · rw [if_neg hcnd]
      exact hInv.elemNodup e

theorem inv_updateElement_nonstructural (s : Storage) (i : Nat) (f : Element → Element)
    (hfp : ∀ ed, (f ed).parent = ed.parent) (hfc : ∀ ed, (f ed).children = ed.children)
    (hInv : Inv s) : Inv (s.updateElement i f) := by
  refine ⟨?_, ?_, ?_, ?_⟩
  · intro r c hc
    obtain ⟨hv, hp⟩ := hInv.rootMem r c hc
    exact ⟨(validCOR_updateElement _ _ _ _).mpr hv,
      by rw [parentOfCOR_updateElement _ _ _ hfp]; exact hp⟩
  · intro r
    exact hInv.rootNodup r
  · intro e c hc
    rw [childrenOf_updateElement _ _ _ hfc] at hc
    obtain ⟨hv, hp⟩ := hInv.elemMem e c hc
    exact ⟨(validCOE_updateElement _ _ _ _).mpr hv,
      by rw [parentOfCOE_updateElement _ _ _ hfp]; exact hp⟩
  · intro e
    rw [childrenOf_updateElement _ _ _ hfc]
    exact hInv.elemNodup e

theorem inv_remove_from_prev (s : Storage) (c : ChildOfRoot) (prev : Option ParentOfChild)
    (hInv : Inv s) : Inv (remove_from_prev s c prev) := by
  cases prev with
  | none => exact hInv
  | some P =>
    cases P with
    | root q => exact inv_updateRoot_filter s q _ hInv
    | element q => exact inv_updateElement_filter s q _ hInv

theorem validCOR_remove_from_prev (s : Storage) (c : ChildOfRoot) (prev : Option ParentOfChild)
    (d : ChildOfRoot) : validCOR (remove_from_prev s c prev) d ↔ validCOR s d := by
  cases prev with
  | none => exact Iff.rfl
  | some P =>
    cases P with
    | root q => exact validCOR_updateRoot _ _ _ _
    | element q => exact validCOR_updateElement _ _ _ _

theorem notInLists_remove_cor (s : Storage) (c : ChildOfRoot) (hInv : Inv s) :
    NotInLists (remove_from_prev s c (parentOfCOR s c)) c.to_child_of_element := by
  cases hpar : parentOfCOR s c with
  | none =>
    constructor
    · intro r d hd heq
      have hdc : d = c := toCOE_inj heq
      subst hdc
      have hp := (hInv.rootMem r d hd).2
      rw [hpar] at hp
      exact Option.noConfusion hp
    · intro e hmem
      have hp := (hInv.elemMem e _ hmem).2
      rw [parentOfCOE_toCOE, hpar] at hp
      exact Option.noConfusion hp
  | some P =>
    cases P with
    | root q =>
      constructor
      · intro r d hd heq
        have hdc : d = c := toCOE_inj heq
        subst hdc
        simp only [remove_from_prev] at hd
        rw [getRoot_updateRoot] at hd
        by_cases hcnd : q = r ∧ q < s.roots.length
        · rw [if_pos hcnd] at hd
          have := (List.mem_filter.mp hd).2
          simp at this
        · rw [if_neg hcnd] at hd
          have hp := (hInv.rootMem r d hd).2
          rw [hpar] at hp
          have hqr : q = r := by
            have := Option.some.inj hp
            cases this
            rfl
          have hrlen : r < s.roots.length := by
            by_contra hge
            rw [getRoot_oob s r (Nat.le_of_not_lt hge)] at hd
            exact absurd hd (List.not_mem_nil _)
          exact hcnd ⟨hqr, hqr ▸ hrlen⟩
      · intro e hmem
        simp only [remove_from_prev] at hmem
        have hp := (hInv.elemMem e _ hmem).2
        rw [parentOfCOE_toCOE, hpar] at hp
        exact ParentOfChild.noConfusion (Option.some.inj hp)
    | element q =>
      constructor
      · intro r d hd heq
        have hdc : d = c := toCOE_inj heq
        subst hdc
        simp only [remove_from_prev] at hd
        have hp := (hInv.rootMem r d hd).2
        rw [hpar] at hp
        exact ParentOfChild.noConfusion (Option.some.inj hp)
      · intro e hmem
        simp only [remove_from_prev] at hmem
        rw [getElement_updateElement] at hmem
        by_cases hcnd : q = e ∧ q < s.elements.length
        · rw [if_pos hcnd] at hmem
          have := (List.mem_filter.mp hmem).2
          simp at this
        · rw [if_neg hcnd] at hmem
          have hp := (hInv.elemMem e _ hmem).2
          rw [parentOfCOE_toCOE, hpar] at hp
          have hqe : q = e := by
            have := Option.some.inj hp
            cases this
            rfl
          have helen : e < s.elements.length := by
            by_contra hge
            rw [getElement_oob s e (Nat.le_of_not_lt hge)] at hmem
            exact absurd hmem (List.not_mem_nil _)
          exact hcnd ⟨hqe, hqe ▸ helen⟩

theorem getElement_children_set_parent_field (s : Storage) (c : ChildOfRoot)
    (p : ParentOfChild) (e : Nat) :
    ((set_parent_field s c p).getElement e).children = (s.getElement e).children := by
  cases c with
  | element n =>
    exact childrenOf_updateElement s n (fun x => { x with parent := some p }) (fun _ => rfl) e
  | comment n => rfl
  | pi n => rfl

theorem parentOfCOR_set_parent_field_ne (s : Storage) (c : ChildOfRoot) (p : ParentOfChild)
    (d : ChildOfRoot) (hdc : d ≠ c) :
    parentOfCOR (set_parent_field s c p) d = parentOfCOR s d := by
  cases c with
  | element n =>
    cases d with
    | element m =>
      show ((s.updateElement n _).getElement m).parent = (s.getElement m).parent
      rw [getElement_updateElement, if_neg (fun hc => hdc (by rw [hc.1]))]
    | comment m => rfl
    | pi m => rfl
  | comment n =>
    cases d with
    | element m => rfl
    | comment m =>
      show ((s.updateComment n _).getComment m).parent = (s.getComment m).parent
      rw [getComment_updateComment, if_neg (fun hc => hdc (by rw [hc.1]))]
    | pi m => rfl
  | pi n =>
    cases d with
    | element m => rfl
    | comment m => rfl
    | pi m =>
      show ((s.updatePI n _).getPI m).parent = (s.getPI m).parent
      rw [getPI_updatePI, if_neg (fun hc => hdc (by rw [hc.1]))]

theorem parentOfCOE_set_parent_field_ne (s : Storage) (c : ChildOfRoot) (p : ParentOfChild)
    (x : ChildOfElement) (hx : x ≠ c.to_child_of_element) :
    parentOfCOE (set_parent_field s c p) x = parentOfCOE s x := by
  cases c with
  | element n =>
    cases x with
    | element m =>
      show ((s.updateElement n _).getElement m).parent = (s.getElement m).parent
      rw [getElement_updateElement, if_neg (fun hc => hx (by rw [hc.1.symm]; rfl))]
    | text m => rfl
    | comment m => rfl
    | pi m => rfl
  | comment n =>
    cases x with
    | element m => rfl
    | text m => rfl
    | comment m =>
      show ((s.updateComment n _).getComment m).parent = (s.getComment m).parent
      rw [getComment_updateComment, if_neg (fun hc => hx (by rw [hc.1.symm]; rfl))]
    | pi m => rfl
  | pi n =>
    cases x with
    | element m => rfl
    | text m => rfl
    | comment m => rfl
    | pi m =>
      show ((s.updatePI n _).getPI m).parent = (s.getPI m).parent
      rw [getPI_updatePI, if_neg (fun hc => hx (by rw [hc.1.symm]; rfl))]

theorem parentOfCOR_set_parent_field_self (s : Storage) (c : ChildOfRoot) (p : ParentOfChild)
    (hval : validCOR s c) : parentOfCOR (set_parent_field s c p) c = some p := by
  cases c with
  | element n =>
    show ((s.updateElement n _).getElement n).parent = some p
    rw [getElement_updateElement_self _ _ _ hval]
  | comment n =>
    show ((s.updateComment n _).getComment n).parent = some p
    rw [getComment_updateComment_self _ _ _ hval]
  | pi n =>
    show ((s.updatePI n _).getPI n).parent = some p
    rw [getPI_updatePI_self _ _ _ hval]

theorem validCOR_set_parent_field (s : Storage) (c : ChildOfRoot) (p : ParentOfChild)
    (d : ChildOfRoot) : validCOR (set_parent_field s c p) d ↔ validCOR s d := by
  cases c with
  | element n => exact validCOR_updateElement _ _ _ _
  | comment n => exact validCOR_updateComment _ _ _ _
  | pi n => exact validCOR_updatePI _ _ _ _

theorem validCOE_set_parent_field (s : Storage) (c : ChildOfRoot) (p : ParentOfChild)
    (x : ChildOfElement) : validCOE (set_parent_field s c p) x ↔ validCOE s x := by
  cases c with
  | element n => exact validCOE_updateElement _ _ _ _
  | comment n => exact validCOE_updateComment _ _ _ _
  | pi n => exact validCOE_updatePI _ _ _ _

theorem inv_set_parent_field (s : Storage) (c : ChildOfRoot) (p : ParentOfChild)
    (hInv : Inv s) (hnot : NotInLists s c.to_child_of_element) :
    Inv (set_parent_field s c p) ∧ NotInLists (set_parent_field s c p) c.to_child_of_element := by
  constructor
  · refine ⟨?_, ?_, ?_, ?_⟩
    · intro r d hd
      rw [getRoot_set_parent_field] at hd
      obtain ⟨hv, hp⟩ := hInv.rootMem r d hd
      have hne : d ≠ c := fun hdc => hnot.1 r d hd (by rw [hdc])
      exact ⟨(validCOR_set_parent_field _ _ _ _).mpr hv,
        by rw [parentOfCOR_set_parent_field_ne _ _ _ _ hne]; exact hp⟩
    · intro r
      rw [getRoot_set_parent_field]
      exact hInv.rootNodup r
    · intro e d hd
      rw [getElement_children_set_parent_field] at hd
      obtain ⟨hv, hp⟩ := hInv.elemMem e d hd
      have hne : d ≠ c.to_child_of_element := fun hdc => hnot.2 e (hdc ▸ hd)
      exact ⟨(validCOE_set_parent_field _ _ _ _).mpr hv,
        by rw [parentOfCOE_set_parent_field_ne _ _ _ _ hne]; exact hp⟩
    · intro e
      rw [getElement_children_set_parent_field]
      exact hInv.elemNodup e
  · constructor
    · intro r d hd heq
      rw [getRoot_set_parent_field] at hd
      exact hnot.1 r d hd heq
    · intro e hmem
      rw [getElement_children_set_parent_field] at hmem
      exact hnot.2 e hmem

theorem inv_replace_parent_field (s : Storage) (c : ChildOfRoot) (p : ParentOfChild)
    (hInv : Inv s) (hval : validCOR s c) :
    Inv (replace_parent_field s c p)
    ∧ NotInLists (replace_parent_field s c p) c.to_child_of_element
    ∧ parentOfCOR (replace_parent_field s c p) c = some p := by
  have hInv2 : Inv (remove_from_prev s c (parentOfCOR s c)) :=
    inv_remove_from_prev s c _ hInv
  have hnot2 : NotInLists (remove_from_prev s c (parentOfCOR s c)) c.to_child_of_element :=
    notInLists_remove_cor s c hInv
  have hval2 : validCOR (remove_from_prev s c (parentOfCOR s c)) c :=
    (validCOR_remove_from_prev _ _ _ _).mpr hval
  obtain ⟨hI, hN⟩ := inv_set_parent_field _ c p hInv2 hnot2
  exact ⟨hI, hN, parentOfCOR_set_parent_field_self _ c p hval2⟩

theorem inv_push_root (s : Storage) (r : Nat) (c : ChildOfRoot) (hInv : Inv s)
    (hnot : NotInLists s c.to_child_of_element) (hval : validCOR s c)
    (hpar : parentOfCOR s c = some (.root r)) :
    Inv (s.updateRoot r (fun rd => { rd with children := rd.children ++ [c] })) := by
  refine ⟨?_, ?_, ?_, ?_⟩
  · intro r' d hd
    rw [getRoot_updateRoot] at hd
    by_cases hcnd : r = r' ∧ r < s.roots.length
    · rw [if_pos hcnd] at hd
      rcases List.mem_append.mp hd with hd | hd
      · obtain ⟨hv, hp⟩ := hInv.rootMem r' d hd
        exact ⟨(validCOR_updateRoot _ _ _ _).mpr hv, by rw [parentOfCOR_updateRoot]; exact hp⟩
      · rcases List.mem_singleton.mp hd with rfl
        refine ⟨(validCOR_updateRoot _ _ _ _).mpr hval, ?_⟩
        rw [parentOfCOR_updateRoot, hpar, hcnd.1]
    · rw [if_neg hcnd] at hd
      obtain ⟨hv, hp⟩ := hInv.rootMem r' d hd
      exact ⟨(validCOR_updateRoot _ _ _ _).mpr hv, by rw [parentOfCOR_updateRoot]; exact hp⟩
  · intro r'
    rw [getRoot_updateRoot]
    by_cases hcnd : r = r' ∧ r < s.roots.length
    · rw [if_pos hcnd]
      refine lx_nodup_append_single _ _ ?_ (hInv.rootNodup r')
      intro hmem
      exact hnot.1 r' c hmem rfl
    · rw [if_neg hcnd]
      exact hInv.rootNodup r'
  · intro e d hd
    obtain ⟨hv, hp⟩ := hInv.elemMem e d hd
    exact ⟨(validCOE_updateRoot _ _ _ _).mpr hv, by rw [parentOfCOE_updateRoot]; exact hp⟩
  · intro e
    exact hInv.elemNodup e

theorem inv_push_elem (s : Storage) (p : Nat) (x : ChildOfElement) (hInv : Inv s)
    (hnot : NotInLists s x) (hval : validCOE s x)
    (hpar : parentOfCOE s x = some (.element p)) :
    Inv (s.updateElement p (fun ed => { ed with children := ed.children ++ [x] })) := by
  have hfp : ∀ ed : Element,
      ((fun ed : Element => { ed with children := ed.children ++ [x] }) ed).parent
        = ed.parent := fun _ => rfl
  refine ⟨?_, ?_, ?_, ?_⟩
  · intro r d hd
    obtain ⟨hv, hp⟩ := hInv.rootMem r d hd
    exact ⟨(validCOR_updateElement _ _ _ _).mpr hv,
      by rw [parentOfCOR_updateElement _ _ _ hfp]; exact hp⟩
  · intro r
    exact hInv.rootNodup r
  · intro e d hd
    rw [getElement_updateElement] at hd
    by_cases hcnd : p = e ∧ p < s.elements.length
    · rw [if_pos hcnd] at hd
      rcases List.mem_append.mp hd with hd | hd
      · obtain ⟨hv, hp⟩ := hInv.elemMem e d hd
        exact ⟨(validCOE_updateElement _ _ _ _).mpr hv,
          by rw [parentOfCOE_updateElement _ _ _ hfp]; exact hp⟩
      · rcases List.mem_singleton.mp hd with rfl
        refine ⟨(validCOE_updateElement _ _ _ _).mpr hval, ?_⟩
        rw [parentOfCOE_updateElement _ _ _ hfp, hpar, hcnd.1]
    · rw [if_neg hcnd] at hd
      obtain ⟨hv, hp⟩ := hInv.elemMem e d hd
      exact ⟨(validCOE_updateElement _ _ _ _).mpr hv,
        by rw [parentOfCOE_updateElement _ _ _ hfp]; exact hp⟩
  · intro e
    rw [getElement_updateElement]
    by_cases hcnd : p = e ∧ p < s.elements.length
    · rw [if_pos hcnd]
      refine lx_nodup_append_single _ _ ?_ (hInv.elemNodup e)
      intro hmem
      exact hnot.2 e hmem
    · rw [if_neg hcnd]
      exact hInv.elemNodup e

theorem toCOE_ne_text (d : ChildOfRoot) (n : Nat) :
    d.to_child_of_element ≠ ChildOfElement.text n := by
  cases d <;> simp [ChildOfRoot.to_child_of_element]

theorem parentOfCOR_updateText (s : Storage) (i : Nat) (f : Text → Text) (c : ChildOfRoot) :
    parentOfCOR (s.updateText i f) c = parentOfCOR s c := by
  cases c <;> rfl

theorem parentOfCOE_updateText_ne (s : Storage) (i : Nat) (f : Text → Text)
    (x : ChildOfElement) (hx : x ≠ .text i) :
    parentOfCOE (s.updateText i f) x = parentOfCOE s x := by
  cases x with
  | text m =>
    show ((s.updateText i f).getText m).parent.map _ = ((s.getText m).parent).map _
    rw [getText_updateText, if_neg (fun hc => hx (by rw [hc.1]))]
  | element m => rfl
  | comment m => rfl
  | pi m => rfl

theorem inv_updateText_parent (s : Storage) (n : Nat) (p : Nat) (hInv : Inv s)
    (hnot : NotInLists s (.text n)) :
    Inv (s.updateText n (fun t => { t with parent := some p })) := by
  refine ⟨?_, ?_, ?_, ?_⟩
  · intro r d hd
    obtain ⟨hv, hp⟩ := hInv.rootMem r d hd
    exact ⟨(validCOR_updateText _ _ _ _).mpr hv, by rw [parentOfCOR_updateText]; exact hp⟩
  · intro r
    exact hInv.rootNodup r
  · intro e d hd
    obtain ⟨hv, hp⟩ := hInv.elemMem e d hd
    have hne : d ≠ ChildOfElement.text n := fun hdn => hnot.2 e (hdn ▸ hd)
    exact ⟨(validCOE_updateText _ _ _ _).mpr hv,
      by rw [parentOfCOE_updateText_ne _ _ _ _ hne]; exact hp⟩
  · intro e
    exact hInv.elemNodup e

theorem inv_coe_replace_parent (s : Storage) (x : ChildOfElement) (p : Nat)
    (hInv : Inv s) (hval : validCOE s x) :
    Inv (ChildOfElement.replace_parent s x p)
    ∧ NotInLists (ChildOfElement.replace_parent s x p) x
    ∧ parentOfCOE (ChildOfElement.replace_parent s x p) x = some (.element p) := by
  cases x with
  | element n =>
    obtain ⟨hI, hN, hP⟩ := inv_replace_parent_field s (.element n) (.element p) hInv hval
    exact ⟨hI, hN, (parentOfCOE_toCOE _ (ChildOfRoot.element n)).trans hP⟩
  | comment n =>
    obtain ⟨hI, hN, hP⟩ := inv_replace_parent_field s (.comment n) (.element p) hInv hval
    exact ⟨hI, hN, (parentOfCOE_toCOE _ (ChildOfRoot.comment n)).trans hP⟩
  | pi n =>
    obtain ⟨hI, hN, hP⟩ := inv_replace_parent_field s (.pi n) (.element p) hInv hval
    exact ⟨hI, hN, (parentOfCOE_toCOE _ (ChildOfRoot.pi n)).trans hP⟩
  | text n =>
    simp only [ChildOfElement.replace_parent]
    cases hp : (s.getText n).parent with
    | none =>
      have hnot : NotInLists s (.text n) := by
        constructor
        · intro r d hd heq
          exact toCOE_ne_text d n heq
        · intro e hmem
          have hpe := (hInv.elemMem e _ hmem).2
          rw [show parentOfCOE s (.text n) = ((s.getText n).parent).map ParentOfChild.element
              from rfl, hp] at hpe
          exact Option.noConfusion hpe
      refine ⟨inv_updateText_parent s n p hInv hnot, ?_, ?_⟩
      · exact ⟨fun r d hd heq => toCOE_ne_text d n heq, fun e hmem => hnot.2 e hmem⟩
      · show ((s.updateText n _).getText n).parent.map ParentOfChild.element = some (.element p)
        rw [getText_updateText_self _ _ _ hval]
        rfl
    | some prev =>
      have hI1 : Inv (s.updateElement prev (fun ed =>
          { ed with children := ed.children.filter (fun m => decide (m ≠ ChildOfElement.text n)) })) :=
        inv_updateElement_filter s prev _ hInv
      have hnot1 : NotInLists (s.updateElement prev (fun ed =>
          { ed with children := ed.children.filter (fun m => decide (m ≠ ChildOfElement.text n)) }))
          (.text n) := by
        constructor
        · intro r d hd heq
          exact toCOE_ne_text d n heq
        · intro e hmem
          rw [getElement_updateElement] at hmem
          by_cases hcnd : prev = e ∧ prev < s.elements.length
          · rw [if_pos hcnd] at hmem
            have := (List.mem_filter.mp hmem).2
            simp at this
          · rw [if_neg hcnd] at hmem
            have hpe := (hInv.elemMem e _ hmem).2
            rw [show parentOfCOE s (.text n) = ((s.getText n).parent).map ParentOfChild.element
                from rfl, hp] at hpe
            have hprev : prev = e := by
              have := Option.some.inj hpe
              cases this
              rfl
            have helen : e < s.elements.length := by
              by_contra hge
              rw [getElement_oob s e (Nat.le_of_not_lt hge)] at hmem
              exact absurd hmem (List.not_mem_nil _)
            exact hcnd ⟨hprev, hprev ▸ helen⟩
      refine ⟨inv_updateText_parent _ n p hI1 hnot1, ?_, ?_⟩
      · exact ⟨fun r d hd heq => toCOE_ne_text d n heq, fun e hmem => hnot1.2 e hmem⟩
      · show (((s.updateElement prev _).updateText n _).getText n).parent.map
            ParentOfChild.element = some (.element p)
        rw [getText_updateText_self _ _ _
          (show n < (s.updateElement prev (fun ed => { ed with children := ed.children.filter (fun m => decide (m ≠ ChildOfElement.text n)) })).texts.length from hval)]
        rfl

theorem inv_create_root (s : Storage) (hInv : Inv s) : Inv ((create_root s).1) := by
  refine ⟨?_, ?_, ?_, ?_⟩
  · intro r c hc
    rw [getRoot_create_root] at hc
    by_cases hr : r = s.roots.length
    · rw [if_pos hr] at hc
      exact absurd hc (List.not_mem_nil _)
    · rw [if_neg hr] at hc
      exact hInv.rootMem r c hc
  · intro r
    rw [getRoot_create_root]
    by_cases hr : r = s.roots.length
    · rw [if_pos hr]
      exact List.nodup_nil
    · rw [if_neg hr]
      exact hInv.rootNodup r
  · intro e c hc
    exact hInv.elemMem e c hc
  · intro e
    exact hInv.elemNodup e

theorem getElement_create_element (s : Storage) (q : QName) (e : Nat) :
    ((create_element s q).1).getElement e
      = if e < s.elements.length then s.getElement e
        else if e = s.elements.length then freshElement q else default := by
  by_cases h1 : e < s.elements.length
  · rw [if_pos h1]
    exact lx_getD_append_left _ _ _ _ h1
  · rw [if_neg h1]
    by_cases h2 : e = s.elements.length
    · subst h2
      rw [if_pos rfl]
      exact lx_getD_append_len _ _ _ _
    · rw [if_neg h2]
      refine lx_getD_oob _ _ _ ?_
      show (s.elements ++ [freshElement q]).length ≤ e
      simp only [List.length_append, List.length_cons, List.length_nil]
      omega

theorem parentOfCOR_create_element (s : Storage) (q : QName) (c : ChildOfRoot)
    (hc : validCOR s c) : parentOfCOR ((create_element s q).1) c = parentOfCOR s c := by
  cases c with
  | element m =>
    show (((create_element s q).1).getElement m).parent = (s.getElement m).parent
    rw [getElement_create_element, if_pos (show m < s.elements.length from hc)]
  | comment m => rfl
  | pi m => rfl

theorem parentOfCOE_create_element (s : Storage) (q : QName) (x : ChildOfElement)
    (hx : validCOE s x) : parentOfCOE ((create_element s q).1) x = parentOfCOE s x := by
  cases x with
  | element m =>
    show (((create_element s q).1).getElement m).parent = (s.getElement m).parent
    rw [getElement_create_element, if_pos (show m < s.elements.length from hx)]
  | text m => rfl
  | comment m => rfl
  | pi m => rfl

theorem validCOR_create_element (s : Storage) (q : QName) (c : ChildOfRoot)
    (hc : validCOR s c) : validCOR ((create_element s q).1) c := by
  cases c with
  | element m =>
    have hm : m < s.elements.length := hc
    show m < (s.elements ++ [_]).length
    simp only [List.length_append, List.length_cons, List.length_nil]
    omega
  | comment m => exact hc
  | pi m => exact hc

theorem validCOE_create_element (s : Storage) (q : QName) (x : ChildOfElement)
    (hx : validCOE s x) : validCOE ((create_element s q).1) x := by
  cases x with
  | element m =>
    have hm : m < s.elements.length := hx
    show m < (s.elements ++ [_]).length
    simp only [List.length_append, List.length_cons, List.length_nil]
    omega
  | text m => exact hx
  | comment m => exact hx
  | pi m => exact hx

theorem inv_create_element (s : Storage) (q : QName) (hInv : Inv s) :
    Inv ((create_element s q).1) := by
  refine ⟨?_, ?_, ?_, ?_⟩
  · intro r c hc
    obtain ⟨hv, hp⟩ := hInv.rootMem r c hc
    exact ⟨validCOR_create_element s q c hv, by rw [parentOfCOR_create_element s q c hv]; exact hp⟩
  · intro r
    exact hInv.rootNodup r
  · intro e c hc
    rw [getElement_create_element] at hc
    by_cases h1 : e < s.elements.length
    · rw [if_pos h1] at hc
      obtain ⟨hv, hp⟩ := hInv.elemMem e c hc
      exact ⟨validCOE_create_element s q c hv,
        by rw [parentOfCOE_create_element s q c hv]; exact hp⟩
    · rw [if_neg h1] at hc
      by_cases h2 : e = s.elements.length
      · rw [if_pos h2] at hc
        exact absurd hc (List.not_mem_nil _)
      · rw [if_neg h2] at hc
        exact absurd hc (List.not_mem_nil _)
  · intro e
    rw [getElement_create_element]
    by_cases h1 : e < s.elements.length
    · rw [if_pos h1]
      exact hInv.elemNodup e
    · rw [if_neg h1]
      by_cases h2 : e = s.elements.length
      · rw [if_pos h2]
        exact List.nodup_nil
      · rw [if_neg h2]
        exact List.nodup_nil

theorem getText_create_text (s : Storage) (t : String) (e : Nat) :
    ((create_text s t).1).getText e
      = if e < s.texts.length then s.getText e
        else if e = s.texts.length then { text := t, parent := none } else default := by
  by_cases h1 : e < s.texts.length
  · rw [if_pos h1]
    exact lx_getD_append_left _ _ _ _ h1
  · rw [if_neg h1]
    by_cases h2 : e = s.texts.length
    · subst h2
      rw [if_pos rfl]
      exact lx_getD_append_len _ _ _ _
    · rw [if_neg h2]
      refine lx_getD_oob _ _ _ ?_
      show (s.texts ++ [({ text := t, parent := none } : Text)]).length ≤ e
      simp only [List.length_append, List.length_cons, List.length_nil]
      omega

theorem inv_create_text (s : Storage) (t : String) (hInv : Inv s) :
    Inv ((create_text s t).1) := by
  refine ⟨?_, ?_, ?_, ?_⟩
  · intro r c hc
    obtain ⟨hv, hp⟩ := hInv.rootMem r c hc
    refine ⟨?_, ?_⟩
    · cases c with
      | element m => exact hv
      | comment m => exact hv
      | pi m => exact hv
    · have : parentOfCOR ((create_text s t).1) c = parentOfCOR s c := by cases c <;> rfl
      rw [this]
      exact hp
  · intro r
    exact hInv.rootNodup r
  · intro e c hc
    obtain ⟨hv, hp⟩ := hInv.elemMem e c hc
    refine ⟨?_, ?_⟩
    · cases c with
      | element m => exact hv
      | text m =>
        have hm : m < s.texts.length := hv
        show m < (s.texts ++ [_]).length
        simp only [List.length_append, List.length_cons, List.length_nil]
        omega
      | comment m => exact hv
      | pi m => exact hv
    · have : parentOfCOE ((create_text s t).1) c = parentOfCOE s c := by
        cases c with
        | text m =>
          show (((create_text s t).1).getText m).parent.map _ = ((s.getText m).parent).map _
          rw [getText_create_text, if_pos (show m < s.texts.length from hv)]
        | element m => rfl
        | comment m => rfl
        | pi m => rfl
      rw [this]
      exact hp
  · intro e
    exact hInv.elemNodup e

theorem getComment_create_comment (s : Storage) (t : String) (e : Nat) :
    ((create_comment s t).1).getComment e
      = if e < s.comments.length then s.getComment e
        else if e = s.comments.length then { text := t, parent := none } else default := by
  by_cases h1 : e < s.comments.length
  · rw [if_pos h1]
    exact lx_getD_append_left _ _ _ _ h1
  · rw [if_neg h1]
    by_cases h2 : e = s.comments.length
    · subst h2
      rw [if_pos rfl]
      exact lx_getD_append_len _ _ _ _
    · rw [if_neg h2]
      refine lx_getD_oob _ _ _ ?_
      show (s.comments ++ [({ text := t, parent := none } : Comment)]).length ≤ e
      simp only [List.length_append, List.length_cons, List.length_nil]
      omega

theorem inv_create_comment (s : Storage) (t : String) (hInv : Inv s) :
    Inv ((create_comment s t).1) := by
  refine ⟨?_, ?_, ?_, ?_⟩
  · intro r c hc
    obtain ⟨hv, hp⟩ := hInv.rootMem r c hc
    refine ⟨?_, ?_⟩
    · cases c with
      | element m => exact hv
      | comment m =>
        have hm : m < s.comments.length := hv
        show m < (s.comments ++ [_]).length
        simp only [List.length_append, List.length_cons, List.length_nil]
        omega
      | pi m => exact hv
    · have : parentOfCOR ((create_comment s t).1) c = parentOfCOR s c := by
        cases c with
        | comment m =>
          show (((create_comment s t).1).getComment m).parent = (s.getComment m).parent
          rw [getComment_create_comment, if_pos (show m < s.comments.length from hv)]
        | element m => rfl
        | pi m => rfl
      rw [this]
      exact hp
  · intro r
    exact hInv.rootNodup r
  · intro e c hc
    obtain ⟨hv, hp⟩ := hInv.elemMem e c hc
    refine ⟨?_, ?_⟩
    · cases c with
      | element m => exact hv
      | text m => exact hv
      | comment m =>
        have hm : m < s.comments.length := hv
        show m < (s.comments ++ [_]).length
        simp only [List.length_append, List.length_cons, List.length_nil]
        omega
      | pi m => exact hv
    · have : parentOfCOE ((create_comment s t).1) c = parentOfCOE s c := by
        cases c with
        | comment m =>
          show (((create_comment s t).1).getComment m).parent = (s.getComment m).parent
          rw [getComment_create_comment, if_pos (show m < s.comments.length from hv)]
        | element m => rfl
        | text m => rfl
        | pi m => rfl
      rw [this]
      exact hp
  · intro e
    exact hInv.elemNodup e

theorem getPI_create_pi (s : Storage) (t : String) (v : Option String) (e : Nat) :
    ((create_processing_instruction s t v).1).getPI e
      = if e < s.processing_instructions.length then s.getPI e
        else if e = s.processing_instructions.length then
          { target := t, value := v, parent := none } else default := by
  by_cases h1 : e < s.processing_instructions.length
  · rw [if_pos h1]
    exact lx_getD_append_left _ _ _ _ h1
  · rw [if_neg h1]
    by_cases h2 : e = s.processing_instructions.length
    · subst h2
      rw [if_pos rfl]
      exact lx_getD_append_len _ _ _ _
    · rw [if_neg h2]
      refine lx_getD_oob _ _ _ ?_
      show (s.processing_instructions ++ [({ target := t, value := v, parent := none } : ProcessingInstruction)]).length ≤ e
      simp only [List.length_append, List.length_cons, List.length_nil]
      omega

theorem inv_create_pi (s : Storage) (t : String) (v : Option String) (hInv : Inv s) :
    Inv ((create_processing_instruction s t v).1) := by
  refine ⟨?_, ?_, ?_, ?_⟩
  · intro r c hc
    obtain ⟨hv, hp⟩ := hInv.rootMem r c hc
    refine ⟨?_, ?_⟩
    · cases c with
      | element m => exact hv
      | comment m => exact hv
      | pi m =>
        have hm : m < s.processing_instructions.length := hv
        show m < (s.processing_instructions ++ [_]).length
        simp only [List.length_append, List.length_cons, List.length_nil]
        omega
    · have : parentOfCOR ((create_processing_instruction s t v).1) c = parentOfCOR s c := by
        cases c with
        | pi m =>
          show (((create_processing_instruction s t v).1).getPI m).parent = (s.getPI m).parent
          rw [getPI_create_pi, if_pos (show m < s.processing_instructions.length from hv)]
        | element m => rfl
        | comment m => rfl
      rw [this]
      exact hp
  · intro r
    exact hInv.rootNodup r
  · intro e c hc
    obtain ⟨hv, hp⟩ := hInv.elemMem e c hc
    refine ⟨?_, ?_⟩
    · cases c with
      | element m => exact hv
      | text m => exact hv
      | comment m => exact hv
      | pi m =>
        have hm : m < s.processing_instructions.length := hv
        show m < (s.processing_instructions ++ [_]).length
        simp only [List.length_append, List.length_cons, List.length_nil]
        omega
    · have : parentOfCOE ((create_processing_instruction s t v).1) c = parentOfCOE s c := by
        cases c with
        | pi m =>
          show (((create_processing_instruction s t v).1).getPI m).parent = (s.getPI m).parent
          rw [getPI_create_pi, if_pos (show m < s.processing_instructions.length from hv)]
        | element m => rfl
        | text m => rfl
        | comment m => rfl
      rw [this]
      exact hp
  · intro e
    exact hInv.elemNodup e

theorem parentOfCOE_updateText_pres (s : Storage) (i : Nat) (f : Text → Text)
    (hf : ∀ td, (f td).parent = td.parent) (x : ChildOfElement) :
    parentOfCOE (s.updateText i f) x = parentOfCOE s x := by
  cases x with
  | text m =>
    show ((s.updateText i f).getText m).parent.map _ = ((s.getText m).parent).map _
    rw [getText_updateText]
    by_cases hc : i = m ∧ i < s.texts.length
    · rw [if_pos hc, hf]
    · rw [if_neg hc]
  | element m => rfl
  | comment m => rfl
  | pi m => rfl

theorem inv_updateText_pres (s : Storage) (i : Nat) (f : Text → Text)
    (hf : ∀ td, (f td).parent = td.parent) (hInv : Inv s) : Inv (s.updateText i f) := by
  refine ⟨?_, ?_, ?_, ?_⟩
  · intro r c hc
    obtain ⟨hv, hp⟩ := hInv.rootMem r c hc
    exact ⟨(validCOR_updateText _ _ _ _).mpr hv, by rw [parentOfCOR_updateText]; exact hp⟩
  · intro r
    exact hInv.rootNodup r
  · intro e c hc
    obtain ⟨hv, hp⟩ := hInv.elemMem e c hc
    exact ⟨(validCOE_updateText _ _ _ _).mpr hv,
      by rw [parentOfCOE_updateText_pres _ _ _ hf]; exact hp⟩
  · intro e
    exact hInv.elemNodup e

theorem parentOfCOR_updateComment_pres (s : Storage) (i : Nat) (f : Comment → Comment)
    (hf : ∀ cd, (f cd).parent = cd.parent) (c : ChildOfRoot) :
    parentOfCOR (s.updateComment i f) c = parentOfCOR s c := by
  cases c with
  | comment m =>
    show ((s.updateComment i f).getComment m).parent = (s.getComment m).parent
    rw [getComment_updateComment]
    by_cases hc : i = m ∧ i < s.comments.length
    · rw [if_pos hc, hf]
    · rw [if_neg hc]
  | element m => rfl
  | pi m => rfl

theorem parentOfCOE_updateComment_pres (s : Storage) (i : Nat) (f : Comment → Comment)
    (hf : ∀ cd, (f cd).parent = cd.parent) (x : ChildOfElement) :
    parentOfCOE (s.updateComment i f) x = parentOfCOE s x := by
  cases x with
  | comment m =>
    show ((s.updateComment i f).getComment m).parent = (s.getComment m).parent
    rw [getComment_updateComment]
    by_cases hc : i = m ∧ i < s.comments.length
    · rw [if_pos hc, hf]
    · rw [if_neg hc]
  | element m => rfl
  | text m => rfl
  | pi m => rfl

theorem inv_updateComment_pres (s : Storage) (i : Nat) (f : Comment → Comment)
    (hf : ∀ cd, (f cd).parent = cd.parent) (hInv : Inv s) : Inv (s.updateComment i f) := by
  refine ⟨?_, ?_, ?_, ?_⟩
  · intro r c hc
    obtain ⟨hv, hp⟩ := hInv.rootMem r c hc
    exact ⟨(validCOR_updateComment _ _ _ _).mpr hv,
      by rw [parentOfCOR_updateComment_pres _ _ _ hf]; exact hp⟩
  · intro r
    exact hInv.rootNodup r
  · intro e c hc
    obtain ⟨hv, hp⟩ := hInv.elemMem e c hc
    exact ⟨(validCOE_updateComment _ _ _ _).mpr hv,
      by rw [parentOfCOE_updateComment_pres _ _ _ hf]; exact hp⟩
  · intro e
    exact hInv.elemNodup e

theorem parentOfCOR_updatePI_pres (s : Storage) (i : Nat)
    (f : ProcessingInstruction → ProcessingInstruction)
    (hf : ∀ pd, (f pd).parent = pd.parent) (c : ChildOfRoot) :
    parentOfCOR (s.updatePI i f) c = parentOfCOR s c := by
  cases c with
  | pi m =>
    show ((s.updatePI i f).getPI m).parent = (s.getPI m).parent
    rw [getPI_updatePI]
    by_cases hc : i = m ∧ i < s.processing_instructions.length
    · rw [if_pos hc, hf]
    · rw [if_neg hc]
  | element m => rfl
  | comment m => rfl

theorem parentOfCOE_updatePI_pres (s : Storage) (i : Nat)
    (f : ProcessingInstruction → ProcessingInstruction)
    (hf : ∀ pd, (f pd).parent = pd.parent) (x : ChildOfElement) :
    parentOfCOE (s.updatePI i f) x = parentOfCOE s x := by
  cases x with
  | pi m =>
    show ((s.updatePI i f).getPI m).parent = (s.getPI m).parent
    rw [getPI_updatePI]
    by_cases hc : i = m ∧ i < s.processing_instructions.length
    · rw [if_pos hc, hf]
    · rw [if_neg hc]
  | element m => rfl
  | text m => rfl
  | comment m => rfl

theorem inv_updatePI_pres (s : Storage) (i : Nat)
    (f : ProcessingInstruction → ProcessingInstruction)
    (hf : ∀ pd, (f pd).parent = pd.parent) (hInv : Inv s) : Inv (s.updatePI i f) := by
  refine ⟨?_, ?_, ?_, ?_⟩
  · intro r c hc
    obtain ⟨hv, hp⟩ := hInv.rootMem r c hc
    exact ⟨(validCOR_updatePI _ _ _ _).mpr hv,
      by rw [parentOfCOR_updatePI_pres _ _ _ hf]; exact hp⟩
  · intro r
    exact hInv.rootNodup r
  · intro e c hc
    obtain ⟨hv, hp⟩ := hInv.elemMem e c hc
    exact ⟨(validCOE_updatePI _ _ _ _).mpr hv,
      by rw [parentOfCOE_updatePI_pres _ _ _ hf]; exact hp⟩
  · intro e
    exact hInv.elemNodup e

theorem validCOE_remove_from_prev (s : Storage) (c : ChildOfRoot) (prev : Option ParentOfChild)
    (x : ChildOfElement) : validCOE (remove_from_prev s c prev) x ↔ validCOE s x := by
  cases prev with
  | none => exact Iff.rfl
  | some P =>
    cases P with
    | root q => exact validCOE_updateRoot _ _ _ _
    | element q => exact validCOE_updateElement _ _ _ _

theorem validCOR_replace_parent_field (s : Storage) (c : ChildOfRoot) (p : ParentOfChild)
    (d : ChildOfRoot) : validCOR (replace_parent_field s c p) d ↔ validCOR s d :=
  (validCOR_set_parent_field _ _ _ _).trans (validCOR_remove_from_prev _ _ _ _)

theorem validCOE_replace_parent_field (s : Storage) (c : ChildOfRoot) (p : ParentOfChild)
    (x : ChildOfElement) : validCOE (replace_parent_field s c p) x ↔ validCOE s x :=
  (validCOE_set_parent_field _ _ _ _).trans (validCOE_remove_from_prev _ _ _ _)

theorem validCOE_coe_replace_parent (s : Storage) (c : ChildOfElement) (p : Nat)
    (x : ChildOfElement) : validCOE (ChildOfElement.replace_parent s c p) x ↔ validCOE s x := by
  cases c with
  | element n => exact validCOE_replace_parent_field _ _ _ _
  | comment n => exact validCOE_replace_parent_field _ _ _ _
  | pi n => exact validCOE_replace_parent_field _ _ _ _
  | text n =>
    simp only [ChildOfElement.replace_parent]
    cases hp : (s.getText n).parent with
    | none => exact validCOE_updateText _ _ _ _
    | some prev => exact (validCOE_updateText _ _ _ _).trans (validCOE_updateElement _ _ _ _)

theorem inv_apply (s : Storage) (op : Op) (hv : Op.valid s op) (hInv : Inv s) :
    Inv (op.apply s) := by
  cases op with
  | createRoot => exact inv_create_root s hInv
  | createElement q => exact inv_create_element s q hInv
  | createAttribute q v => exact ⟨hInv.1, hInv.2, hInv.3, hInv.4⟩
  | createText t => exact inv_create_text s t hInv
  | createComment t => exact inv_create_comment s t hInv
  | createPI t v => exact inv_create_pi s t v hInv
  | elementSetName e q =>
    exact inv_updateElement_nonstructural s e (fun x => { x with name := q })
      (fun _ => rfl) (fun _ => rfl) hInv
  | elementRegisterPfx e p u =>
    exact inv_updateElement_nonstructural s e
      (fun x => { x with pfx_to_namespace := hmInsert x.pfx_to_namespace p u })
      (fun _ => rfl) (fun _ => rfl) hInv
  | elementSetPreferredPfx e p =>
    exact inv_updateElement_nonstructural s e (fun x => { x with preferred_pfx := p })
      (fun _ => rfl) (fun _ => rfl) hInv
  | attributeSetPreferredPfx a p => exact ⟨hInv.1, hInv.2, hInv.3, hInv.4⟩
  | textSetText t x =>
    exact inv_updateText_pres s t (fun td => { td with text := x }) (fun _ => rfl) hInv
  | commentSetText c x =>
    exact inv_updateComment_pres s c (fun cd => { cd with text := x }) (fun _ => rfl) hInv
  | piSetTarget p x =>
    exact inv_updatePI_pres s p (fun pd => { pd with target := x }) (fun _ => rfl) hInv
  | piSetValue p x =>
    exact inv_updatePI_pres s p (fun pd => { pd with value := x }) (fun _ => rfl) hInv
  | appendRootChild root c =>
    obtain ⟨hr, hvc⟩ := hv
    cases c with
    | element n =>
      have hI1 : Inv (s.updateRoot root rootEvictElems) :=
        inv_updateRoot_filter s root _ hInv
      have hvc1 : validCOR (s.updateRoot root rootEvictElems) (.element n) :=
        (validCOR_updateRoot _ _ _ _).mpr hvc
      obtain ⟨hI2, hN2, hP2⟩ :=
        inv_replace_parent_field _ (.element n) (.root root) hI1 hvc1
      exact inv_push_root _ root (.element n) hI2 hN2
        ((validCOR_replace_parent_field _ _ _ _).mpr hvc1) hP2
    | comment n =>
      obtain ⟨hI2, hN2, hP2⟩ :=
        inv_replace_parent_field s (.comment n) (.root root) hInv hvc
      exact inv_push_root _ root (.comment n) hI2 hN2
        ((validCOR_replace_parent_field _ _ _ _).mpr hvc) hP2
    | pi n =>
      obtain ⟨hI2, hN2, hP2⟩ :=
        inv_replace_parent_field s (.pi n) (.root root) hInv hvc
      exact inv_push_root _ root (.pi n) hI2 hN2
        ((validCOR_replace_parent_field _ _ _ _).mpr hvc) hP2
  | appendElementChild p c =>
    obtain ⟨hp, hvc⟩ := hv
    obtain ⟨hI2, hN2, hP2⟩ := inv_coe_replace_parent s c p hInv hvc
    exact inv_push_elem _ p c hI2 hN2 ((validCOE_coe_replace_parent _ _ _ _).mpr hvc) hP2
  | setAttribute p a =>
    have h1 := inv_updateElement_nonstructural s p
      (fun ed => { ed with attributes := ed.attributes.filter (fun x => decide ((s.getAttribute x).name ≠ (s.getAttribute a).name)) ++ [a] })
      (fun _ => rfl) (fun _ => rfl) hInv
    exact ⟨h1.1, h1.2, h1.3, h1.4⟩

theorem inv_empty : Inv emptyStorage := by
  refine ⟨?_, ?_, ?_, ?_⟩
  · intro r c hc
    exact absurd hc (List.not_mem_nil _)
  · intro r
    exact List.nodup_nil
  · intro e c hc
    exact absurd hc (List.not_mem_nil _)
  · intro e
    exact List.nodup_nil

theorem inv_applyOps (ops : List Op) :
    ∀ s, opsValid s ops → Inv s → Inv (applyOps ops s) := by
  induction ops with
  | nil => exact fun s _ h => h
  | cons op rest ih =>
    intro s hv hInv
    exact ih _ hv.2 (inv_apply s op hv.1 hInv)

/-- C1 (amended): after any finite valid sequence of Storage and
Connections operations from the empty store, the FORWARD half of the
invariant holds for children lists: every entry of a root's or
element's children list is a valid handle whose parent field is that
list's owner, each list has no duplicate entries, and a node occurs in
at most one children list.  (The converse — a set parent field implies
list membership — is refuted by the displaced-element counterexample,
and for attribute lists even the forward half fails.) -/
theorem c1_children_forward_invariant (ops : List Op) (hv : opsValid emptyStorage ops) :
    Inv (applyOps ops emptyStorage)
    ∧ (∀ r r' c, c ∈ root_children (applyOps ops emptyStorage) r →
        c ∈ root_children (applyOps ops emptyStorage) r' → r = r')
    ∧ (∀ e e' x, x ∈ element_children (applyOps ops emptyStorage) e →
        x ∈ element_children (applyOps ops emptyStorage) e' → e = e')
    ∧ (∀ r e c, c ∈ root_children (applyOps ops emptyStorage) r →
        c.to_child_of_element ∉ element_children (applyOps ops emptyStorage) e) := by
  have hInv : Inv (applyOps ops emptyStorage) := inv_applyOps ops emptyStorage hv inv_empty
  refine ⟨hInv, ?_, ?_, ?_⟩
  · intro r r' c h1 h2
    have p1 := (hInv.rootMem r c h1).2
    have p2 := (hInv.rootMem r' c h2).2
    rw [p1] at p2
    cases Option.some.inj p2
    rfl
  · intro e e' x h1 h2
    have p1 := (hInv.elemMem e x h1).2
    have p2 := (hInv.elemMem e' x h2).2
    rw [p1] at p2
    cases Option.some.inj p2
    rfl
  · intro r e c h1 h2
    have p1 := (hInv.rootMem r c h1).2
    have p2 := (hInv.elemMem e _ h2).2
    rw [parentOfCOE_toCOE, p1] at p2
    exact ParentOfChild.noConfusion (Option.some.inj p2)

/-- An operation trace exercising creation, both append flavors,
displacement and attribute setting. -/
def c1ops : List Op :=
  [.createRoot, .createElement ⟨none, "a"⟩, .createElement ⟨none, "b"⟩, .createText "t",
   .createComment "c", .createAttribute ⟨none, "x"⟩ "1", .appendRootChild 0 (.element 0),
   .appendElementChild 0 (.text 0), .appendRootChild 0 (.element 1),
   .appendRootChild 0 (.comment 0), .setAttribute 1 0]

theorem c1_witness :
    opsValid emptyStorage c1ops
    ∧ (Inv (applyOps c1ops emptyStorage)
       ∧ (∀ r r' c, c ∈ root_children (applyOps c1ops emptyStorage) r →
           c ∈ root_children (applyOps c1ops emptyStorage) r' → r = r')
       ∧ (∀ e e' x, x ∈ element_children (applyOps c1ops emptyStorage) e →
           x ∈ element_children (applyOps c1ops emptyStorage) e' → e = e')
       ∧ (∀ r e c, c ∈ root_children (applyOps c1ops emptyStorage) r →
           c.to_child_of_element ∉ element_children (applyOps c1ops emptyStorage) e)) :=
  ⟨by decide, c1_children_forward_invariant c1ops (by decide)⟩

/-! ## Acyclicity of the element parent graph (claim C10) -/

/-- One upward step in the element parent graph: element `a` exists and
its parent field names element `b`. -/
def parentEdge (s : Storage) (a b : Nat) : Prop :=
  a < s.elements.length ∧ (s.getElement a).parent = some (.element b)

/-- `anc` is a strict ancestor of `de`: `de`'s parent chain reaches `anc`. -/
def AncestorOf (s : Storage) (anc de : Nat) : Prop :=
  Relation.TransGen (parentEdge s) de anc

/-- No element is its own (strict) ancestor. -/
def Acyclic (s : Storage) : Prop := ∀ e, ¬ AncestorOf s e e

/-- The caller discipline of the claim: never append an element to
itself or to one of its descendants. -/
def Op.acyclOk (s : Storage) : Op → Prop
  | .appendElementChild p c =>
    match c with
    | .element n => ¬ (n = p ∨ AncestorOf s n p)
    | _ => True
  | _ => True

/-- Validity plus the no-ancestor-append discipline along a sequence. -/
def opsOk (s : Storage) : List Op → Prop
  | [] => True
  | op :: rest => Op.valid s op ∧ Op.acyclOk s op ∧ opsOk (op.apply s) rest

theorem acyclic_mono (s s' : Storage)
    (himp : ∀ a b, parentEdge s' a b → parentEdge s a b) (h : Acyclic s) : Acyclic s' :=
  fun e hTG => h e (Relation.TransGen.mono himp hTG)

theorem elemLen_remove_from_prev (s : Storage) (c : ChildOfRoot) (prev : Option ParentOfChild) :
    (remove_from_prev s c prev).elements.length = s.elements.length := by
  cases prev with
  | none => rfl
  | some P =>
    cases P with
    | root q => rfl
    | element q => exact length_updateElement _ _ _

theorem elemParent_remove_from_prev (s : Storage) (c : ChildOfRoot)
    (prev : Option ParentOfChild) (a : Nat) :
    ((remove_from_prev s c prev).getElement a).parent = (s.getElement a).parent := by
  cases prev with
  | none => rfl
  | some P =>
    cases P with
    | root q => rfl
    | element q =>
      show ((s.updateElement q _).getElement a).parent = _
      rw [getElement_updateElement]
      by_cases hc : q = a ∧ q < s.elements.length
      · rw [if_pos hc]
      · rw [if_neg hc]

theorem elemParent_push_elem (s : Storage) (p : Nat) (x : ChildOfElement) (a : Nat) :
    ((s.updateElement p (fun ed => { ed with children := ed.children ++ [x] })).getElement
        a).parent = (s.getElement a).parent := by
  rw [getElement_updateElement]
  by_cases hc : p = a ∧ p < s.elements.length
  · rw [if_pos hc]
  · rw [if_neg hc]

theorem elemLen_push_elem (s : Storage) (p : Nat) (x : ChildOfElement) :
    (s.updateElement p (fun ed => { ed with children := ed.children ++ [x] })).elements.length
      = s.elements.length := by
  simp [Storage.updateElement]

theorem elemParent_arc_elem (s : Storage) (root n a : Nat) :
    ((append_root_child s root (.element n)).getElement a).parent
      = if n = a ∧ n < s.elements.length then some (.root root)
        else (s.getElement a).parent := by
  show (((set_parent_field (remove_from_prev (s.updateRoot root rootEvictElems) (.element n)
      (parentOfCOR (s.updateRoot root rootEvictElems) (.element n))) (.element n)
      (.root root)).updateRoot root _).getElement a).parent = _
  show ((set_parent_field (remove_from_prev (s.updateRoot root rootEvictElems) (.element n)
      (parentOfCOR (s.updateRoot root rootEvictElems) (.element n))) (.element n)
      (.root root)).getElement a).parent = _
  show (((remove_from_prev (s.updateRoot root rootEvictElems) (.element n)
      (parentOfCOR (s.updateRoot root rootEvictElems) (.element n))).updateElement n
      (fun x => { x with parent := some (ParentOfChild.root root) })).getElement a).parent = _
  rw [getElement_updateElement]
  have hlen : (remove_from_prev (s.updateRoot root rootEvictElems) (.element n)
      (parentOfCOR (s.updateRoot root rootEvictElems) (.element n))).elements.length
      = s.elements.length := elemLen_remove_from_prev _ _ _
  by_cases hc : n = a ∧ n < s.elements.length
  · rw [if_pos (by rw [hlen]; exact hc), if_pos hc]
  · rw [if_neg (by rw [hlen]; exact hc), if_neg hc]
    exact elemParent_remove_from_prev _ _ _ a

theorem elemParent_arc_comment (s : Storage) (root n a : Nat) :
    ((append_root_child s root (.comment n)).getElement a).parent
      = (s.getElement a).parent := by
  show ((set_parent_field (remove_from_prev s (.comment n) (parentOfCOR s (.comment n)))
      (.comment n) (.root root)).getElement a).parent = _
  show ((remove_from_prev s (.comment n) (parentOfCOR s (.comment n))).getElement a).parent = _
  exact elemParent_remove_from_prev _ _ _ a

theorem elemParent_arc_pi (s : Storage) (root n a : Nat) :
    ((append_root_child s root (.pi n)).getElement a).parent = (s.getElement a).parent := by
  show ((set_parent_field (remove_from_prev s (.pi n) (parentOfCOR s (.pi n)))
      (.pi n) (.root root)).getElement a).parent = _
  show ((remove_from_prev s (.pi n) (parentOfCOR s (.pi n))).getElement a).parent = _
  exact elemParent_remove_from_prev _ _ _ a

theorem elemLen_arc (s : Storage) (root : Nat) (c : ChildOfRoot) :
    (append_root_child s root c).elements.length = s.elements.length := by
  cases c with
  | element n =>
    show ((remove_from_prev (s.updateRoot root rootEvictElems) (.element n)
        (parentOfCOR (s.updateRoot root rootEvictElems) (.element n))).updateElement n
        (fun x => { x with parent := some (ParentOfChild.root root) })).elements.length
        = s.elements.length
    rw [length_updateElement]
    exact elemLen_remove_from_prev _ _ _
  | comment n =>
    show ((remove_from_prev s (.comment n) (parentOfCOR s (.comment n))).updateComment n
        (fun x => { x with parent := some (ParentOfChild.root root) })).elements.length
        = s.elements.length
    exact elemLen_remove_from_prev _ _ _
  | pi n =>
    show ((remove_from_prev s (.pi n) (parentOfCOR s (.pi n))).updatePI n
        (fun x => { x with parent := some (ParentOfChild.root root) })).elements.length
        = s.elements.length
    exact elemLen_remove_from_prev _ _ _

theorem elemParent_aec_elem (s : Storage) (p n a : Nat) :
    ((append_element_child s p (.element n)).getElement a).parent
      = if n = a ∧ n < s.elements.length then some (.element p)
        else (s.getElement a).parent := by
  show (((set_parent_field (remove_from_prev s (.element n) (parentOfCOR s (.element n)))
      (.element n) (.element p)).updateElement p
      (fun ed => { ed with children := ed.children ++ [ChildOfElement.element n] })).getElement
      a).parent = _
  rw [elemParent_push_elem]
  show (((remove_from_prev s (.element n) (parentOfCOR s (.element n))).updateElement n
      (fun x => { x with parent := some (ParentOfChild.element p) })).getElement a).parent = _
  rw [getElement_updateElement]
  have hlen : (remove_from_prev s (.element n) (parentOfCOR s (.element n))).elements.length
      = s.elements.length := elemLen_remove_from_prev _ _ _
  by_cases hc : n = a ∧ n < s.elements.length
  · rw [if_pos (by rw [hlen]; exact hc), if_pos hc]
  · rw [if_neg (by rw [hlen]; exact hc), if_neg hc]
    exact elemParent_remove_from_prev _ _ _ a

theorem elemParent_aec_text (s : Storage) (p n a : Nat) :
    ((append_element_child s p (.text n)).getElement a).parent = (s.getElement a).parent := by
  simp only [append_element_child, ChildOfElement.replace_parent]
  rw [elemParent_push_elem]
  show ((match (s.getText n).parent with
      | some prev => s.updateElement prev (fun ed => { ed with children := ed.children.filter (fun m => decide (m ≠ ChildOfElement.text n)) })
      | none => s).getElement a).parent = _
  cases hp : (s.getText n).parent with
  | none => rfl
  | some prev =>
    show ((s.updateElement prev _).getElement a).parent = _
    rw [getElement_updateElement]
    by_cases hc : prev = a ∧ prev < s.elements.length
    · rw [if_pos hc]
    · rw [if_neg hc]

theorem elemParent_aec_comment (s : Storage) (p n a : Nat) :
    ((append_element_child s p (.comment n)).getElement a).parent
      = (s.getElement a).parent := by
  show (((set_parent_field (remove_from_prev s (.comment n) (parentOfCOR s (.comment n)))
      (.comment n) (.element p)).updateElement p _).getElement a).parent = _
  rw [elemParent_push_elem]
  show ((remove_from_prev s (.comment n) (parentOfCOR s (.comment n))).getElement a).parent = _
  exact elemParent_remove_from_prev _ _ _ a

theorem elemParent_aec_pi (s : Storage) (p n a : Nat) :
    ((append_element_child s p (.pi n)).getElement a).parent = (s.getElement a).parent := by
  show (((set_parent_field (remove_from_prev s (.pi n) (parentOfCOR s (.pi n)))
      (.pi n) (.element p)).updateElement p _).getElement a).parent = _
  rw [elemParent_push_elem]
  show ((remove_from_prev s (.pi n) (parentOfCOR s (.pi n))).getElement a).parent = _
  exact elemParent_remove_from_prev _ _ _ a

theorem elemLen_aec (s : Storage) (p : Nat) (c : ChildOfElement) :
    (append_element_child s p c).elements.length = s.elements.length := by
  cases c with
  | element n =>
    show (((remove_from_prev s (.element n) (parentOfCOR s (.element n))).updateElement n
        (fun x => { x with parent := some (ParentOfChild.element p) })).updateElement p
        (fun ed => { ed with children := ed.children ++ [ChildOfElement.element n] })).elements.length
        = s.elements.length
    rw [length_updateElement, length_updateElement]
    exact elemLen_remove_from_prev _ _ _
  | text n =>
    simp only [append_element_child, ChildOfElement.replace_parent]
    rw [length_updateElement]
    show ((match (s.getText n).parent with
        | some prev => s.updateElement prev (fun ed => { ed with children := ed.children.filter (fun m => decide (m ≠ ChildOfElement.text n)) })
        | none => s).updateText n _).elements.length = _
    cases hp : (s.getText n).parent with
    | none => rfl
    | some prev =>
      show ((s.updateElement prev _).updateText n _).elements.length = _
      rw [show ∀ t : Storage, ∀ f, (t.updateText n f).elements.length = t.elements.length
          from fun _ _ => rfl, length_updateElement]
  | comment n =>
    show (((remove_from_prev s (.comment n) (parentOfCOR s (.comment n))).updateComment n
        (fun x => { x with parent := some (ParentOfChild.element p) })).updateElement p
        (fun ed => { ed with children := ed.children ++ [ChildOfElement.comment n] })).elements.length
        = s.elements.length
    rw [length_updateElement]
    exact elemLen_remove_from_prev _ _ _
  | pi n =>
    show (((remove_from_prev s (.pi n) (parentOfCOR s (.pi n))).updatePI n
        (fun x => { x with parent := some (ParentOfChild.element p) })).updateElement p
        (fun ed => { ed with children := ed.children ++ [ChildOfElement.pi n] })).elements.length
        = s.elements.length
    rw [length_updateElement]
    exact elemLen_remove_from_prev _ _ _

theorem acyclic_congr (s s' : Storage)
    (hlen : s'.elements.length = s.elements.length)
    (hpar : ∀ a, (s'.getElement a).parent = (s.getElement a).parent)
    (h : Acyclic s) : Acyclic s' := by
  refine acyclic_mono s s' (fun a b hab => ?_) h
  obtain ⟨ha, hp⟩ := hab
  rw [hlen] at ha
  rw [hpar a] at hp
  exact ⟨ha, hp⟩

theorem elemParent_updateElement_keep (s : Storage) (i : Nat) (f : Element → Element)
    (hf : ∀ x, (f x).parent = x.parent) (a : Nat) :
    ((s.updateElement i f).getElement a).parent = (s.getElement a).parent := by
  rw [getElement_updateElement]
  by_cases hc : i = a ∧ i < s.elements.length
  · rw [if_pos hc]; exact hf _
  · rw [if_neg hc]

theorem acyclic_create_element (s : Storage) (q : QName) (h : Acyclic s) :
    Acyclic ((create_element s q).1) := by
  refine acyclic_mono s _ (fun a b hab => ?_) h
  obtain ⟨ha, hp⟩ := hab
  by_cases hlt : a < s.elements.length
  · refine ⟨hlt, ?_⟩
    have hg : ((create_element s q).1).getElement a = s.getElement a := by
      show (s.elements ++ [_]).getD a default = s.elements.getD a default
      exact lx_getD_append_left _ _ _ _ hlt
    rw [hg] at hp
    exact hp
  · exfalso
    have ha' : a = s.elements.length := by
      have h1 : a < s.elements.length + 1 := by
        have := ha
        simp only [show ((create_element s q).1).elements = s.elements ++
            [{ name := q, preferred_pfx := none, children := [], parent := none,
               attributes := [], pfx_to_namespace := [] }] from rfl,
          List.length_append, List.length_cons, List.length_nil] at this
        omega
      omega
    have hg : ((create_element s q).1).getElement a
        = { name := q, preferred_pfx := none, children := [], parent := none,
            attributes := [], pfx_to_namespace := [] } := by
      show (s.elements ++ [_]).getD a default = _
      rw [ha']
      exact lx_getD_append_len _ _ _ _
    rw [hg] at hp
    exact Option.noConfusion hp

theorem acyclic_arc_elem (s : Storage) (root n : Nat) (h : Acyclic s) :
    Acyclic (append_root_child s root (.element n)) := by
  refine acyclic_mono s _ (fun a b hab => ?_) h
  obtain ⟨ha, hp⟩ := hab
  rw [elemLen_arc] at ha
  rw [elemParent_arc_elem] at hp
  by_cases hc : n = a ∧ n < s.elements.length
  · rw [if_pos hc] at hp
    exact absurd (Option.some.inj hp) (fun hh => ParentOfChild.noConfusion hh)
  · rw [if_neg hc] at hp
    exact ⟨ha, hp⟩

theorem acyclic_aec_elem (s : Storage) (p n : Nat)
    (hok : ¬ (n = p ∨ AncestorOf s n p)) (h : Acyclic s) :
    Acyclic (append_element_child s p (.element n)) := by
  have hnp : n ≠ p := fun he => hok (Or.inl he)
  have hpn : ¬ Relation.TransGen (parentEdge s) p n := fun ht => hok (Or.inr ht)
  have hlen : (append_element_child s p (.element n)).elements.length
      = s.elements.length := elemLen_aec s p (.element n)
  have houtn : ∀ b, parentEdge (append_element_child s p (.element n)) n b → b = p := by
    intro b hb
    obtain ⟨ha, hp'⟩ := hb
    rw [hlen] at ha
    rw [elemParent_aec_elem, if_pos ⟨rfl, ha⟩] at hp'
    exact (ParentOfChild.element.inj (Option.some.inj hp')).symm
  have hfromNot : ∀ a b, a ≠ n → parentEdge (append_element_child s p (.element n)) a b →
      parentEdge s a b := by
    intro a b hne hb
    obtain ⟨ha, hp'⟩ := hb
    rw [hlen] at ha
    rw [elemParent_aec_elem, if_neg (fun hc => hne hc.1.symm)] at hp'
    exact ⟨ha, hp'⟩
  have htoNot : ∀ a b, a ≠ n → parentEdge s a b →
      parentEdge (append_element_child s p (.element n)) a b := by
    intro a b hne hb
    obtain ⟨ha, hp'⟩ := hb
    refine ⟨by rw [hlen]; exact ha, ?_⟩
    rw [elemParent_aec_elem, if_neg (fun hc => hne hc.1.symm)]
    exact hp'
  have claimDr : ∀ x, Relation.ReflTransGen
        (parentEdge (append_element_child s p (.element n))) x n →
      Relation.ReflTransGen (parentEdge s) x n := by
    intro x hx
    induction hx using Relation.ReflTransGen.head_induction_on with
    | refl => exact Relation.ReflTransGen.refl
    | head h1 hrest ih =>
      rename_i a c
      by_cases han : a = n
      · subst han; exact Relation.ReflTransGen.refl
      · exact Relation.ReflTransGen.head (hfromNot a c han h1) ih
  have claimD : ∀ x, Relation.ReflTransGen (parentEdge s) x n →
      Relation.ReflTransGen (parentEdge (append_element_child s p (.element n))) x n := by
    intro x hx
    induction hx using Relation.ReflTransGen.head_induction_on with
    | refl => exact Relation.ReflTransGen.refl
    | head h1 hrest ih =>
      rename_i a c
      by_cases han : a = n
      · subst han; exact Relation.ReflTransGen.refl
      · exact Relation.ReflTransGen.head (htoNot a c han h1) ih
  have claimC : ∀ x y,
      Relation.TransGen (parentEdge (append_element_child s p (.element n))) x y →
      Relation.TransGen (parentEdge s) x y ∨
        (Relation.ReflTransGen (parentEdge s) x n ∧
          Relation.ReflTransGen (parentEdge (append_element_child s p (.element n))) p y) := by
    intro x y hxy
    induction hxy with
    | single h1 =>
      rename_i b
      by_cases hxn : x = n
      · subst hxn
        have hb := houtn b h1
        subst hb
        exact Or.inr ⟨Relation.ReflTransGen.refl, Relation.ReflTransGen.refl⟩
      · exact Or.inl (Relation.TransGen.single (hfromNot x b hxn h1))
    | tail hxb hbc ih =>
      rename_i b c
      cases ih with
      | inl hT =>
        by_cases hbn : b = n
        · subst hbn
          have hc := houtn c hbc
          subst hc
          exact Or.inr ⟨hT.to_reflTransGen, Relation.ReflTransGen.refl⟩
        · exact Or.inl (hT.tail (hfromNot b c hbn hbc))
      | inr hpr =>
        exact Or.inr ⟨hpr.1, hpr.2.tail hbc⟩
  intro e hC
  cases claimC e e hC with
  | inl hT => exact h e hT
  | inr hpr =>
    obtain ⟨hen, hpe⟩ := hpr
    have hpnR : Relation.ReflTransGen (parentEdge s) p n :=
      claimDr p (hpe.trans (claimD e hen))
    rcases Relation.reflTransGen_iff_eq_or_transGen.mp hpnR with heq | hT
    · exact hnp heq
    · exact hpn hT

theorem acyclic_apply (s : Storage) (op : Op) (hok : Op.acyclOk s op) (h : Acyclic s) :
    Acyclic (op.apply s) := by
  cases op with
  | createRoot => exact acyclic_congr s _ rfl (fun a => rfl) h
  | createElement q => exact acyclic_create_element s q h
  | createAttribute q v => exact acyclic_congr s _ rfl (fun a => rfl) h
  | createText t => exact acyclic_congr s _ rfl (fun a => rfl) h
  | createComment t => exact acyclic_congr s _ rfl (fun a => rfl) h
  | createPI t v => exact acyclic_congr s _ rfl (fun a => rfl) h
  | elementSetName e q =>
    exact acyclic_congr s _ (length_updateElement s e (fun x => { x with name := q }))
      (fun a => elemParent_updateElement_keep s e (fun x => { x with name := q })
        (fun x => rfl) a) h
  | elementRegisterPfx e p uri =>
    exact acyclic_congr s _ (length_updateElement s e
        (fun x => { x with pfx_to_namespace := hmInsert x.pfx_to_namespace p uri }))
      (fun a => elemParent_updateElement_keep s e
        (fun x => { x with pfx_to_namespace := hmInsert x.pfx_to_namespace p uri })
        (fun x => rfl) a) h
  | elementSetPreferredPfx e p =>
    exact acyclic_congr s _ (length_updateElement s e (fun x => { x with preferred_pfx := p }))
      (fun a => elemParent_updateElement_keep s e (fun x => { x with preferred_pfx := p })
        (fun x => rfl) a) h
  | attributeSetPreferredPfx a p => exact acyclic_congr s _ rfl (fun a => rfl) h
  | textSetText t x => exact acyclic_congr s _ rfl (fun a => rfl) h
  | commentSetText c x => exact acyclic_congr s _ rfl (fun a => rfl) h
  | piSetTarget pi t => exact acyclic_congr s _ rfl (fun a => rfl) h
  | piSetValue pi v => exact acyclic_congr s _ rfl (fun a => rfl) h
  | appendRootChild root c =>
    cases c with
    | element n => exact acyclic_arc_elem s root n h
    | comment n =>
      exact acyclic_congr s _ (elemLen_arc s root _)
        (fun a => elemParent_arc_comment s root n a) h
    | pi n =>
      exact acyclic_congr s _ (elemLen_arc s root _)
        (fun a => elemParent_arc_pi s root n a) h
  | appendElementChild p c =>
    cases c with
    | element n => exact acyclic_aec_elem s p n hok h
    | text n =>
      exact acyclic_congr s _ (elemLen_aec s p _)
        (fun a => elemParent_aec_text s p n a) h
    | comment n =>
      exact acyclic_congr s _ (elemLen_aec s p _)
        (fun a => elemParent_aec_comment s p n a) h
    | pi n =>
      exact acyclic_congr s _ (elemLen_aec s p _)
        (fun a => elemParent_aec_pi s p n a) h
  | setAttribute parent attr =>
    exact acyclic_congr s _
      (length_updateElement s parent (fun ed =>
        { ed with attributes := ed.attributes.filter (fun a => decide ((s.getAttribute a).name ≠ (s.getAttribute attr).name)) ++ [attr] }))
      (fun a => elemParent_updateElement_keep s parent (fun ed =>
        { ed with attributes := ed.attributes.filter (fun a => decide ((s.getAttribute a).name ≠ (s.getAttribute attr).name)) ++ [attr] }) (fun x => rfl) a) h

theorem acyclic_applyOps (ops : List Op) (s : Storage) (hops : opsOk s ops)
    (h : Acyclic s) : Acyclic (applyOps ops s) := by
  induction ops generalizing s with
  | nil => exact h
  | cons op rest ih =>
    obtain ⟨hv, hok, hrest⟩ := hops
    exact ih (op.apply s) hrest (acyclic_apply s op hok h)

theorem acyclic_empty : Acyclic emptyStorage := by
  intro e h
  cases h with
  | single h1 => exact absurd h1.1 (Nat.not_lt_zero _)
  | tail h1 h2 => exact absurd h2.1 (Nat.not_lt_zero _)

theorem opsOk_append_left (l1 l2 : List Op) (s : Storage) (h : opsOk s (l1 ++ l2)) :
    opsOk s l1 := by
  induction l1 generalizing s with
  | nil => trivial
  | cons op rest ih => exact ⟨h.1, h.2.1, ih (op.apply s) h.2.2⟩

theorem transGen_first_step {α : Type} (r : α → α → Prop) (a b : α)
    (h : Relation.TransGen r a b) : ∃ c, r a c := by
  induction h with
  | single h1 => exact ⟨_, h1⟩
  | tail h1 h2 ih => exact ih

theorem notAncestor_of_parent_none (s : Storage) (a : Nat)
    (hp : (s.getElement a).parent = none) (b : Nat) :
    ¬ Relation.TransGen (parentEdge s) a b := by
  intro h
  obtain ⟨c, hc⟩ := transGen_first_step _ _ _ h
  exact Option.noConfusion (hp.symm.trans hc.2)

/-- Concrete discipline-respecting trace: a root, two elements, the second
element appended under the first, the first appended under the root. -/
def c10ops : List Op :=
  [.createRoot, .createElement ⟨none, "a"⟩, .createElement ⟨none, "b"⟩,
   .appendElementChild 0 (.element 1), .appendRootChild 0 (.element 0)]

theorem c10opsOk : opsOk emptyStorage c10ops :=
  ⟨by decide, trivial, by decide, trivial, by decide, trivial, by decide,
    fun hcon => hcon.elim (fun h1 => Nat.one_ne_zero h1)
      (fun h2 => by refine notAncestor_of_parent_none _ 0 ?_ 1 h2; rfl),
    by decide, trivial, trivial⟩

/-- C10: along any finite operation sequence from the empty store in which no
`append_element_child` call appends an element to itself or to one of its
current descendants (the `opsOk` discipline), no element is ever its own
ancestor: after every prefix of the sequence, the element parent graph is
acyclic (no element reaches itself through parent-field edges). -/
theorem c10_no_element_cycles (ops pre post : List Op)
    (hsplit : ops = pre ++ post) (hops : opsOk emptyStorage ops) :
    Acyclic (applyOps pre emptyStorage) := by
  subst hsplit
  exact acyclic_applyOps pre emptyStorage
    (opsOk_append_left pre post emptyStorage hops) acyclic_empty

theorem c10_witness :
    (c10ops = c10ops ++ [] ∧ opsOk emptyStorage c10ops) ∧
      Acyclic (applyOps c10ops emptyStorage) :=
  ⟨⟨(List.append_nil c10ops).symm, c10opsOk⟩,
    c10_no_element_cycles c10ops c10ops [] (List.append_nil c10ops).symm c10opsOk⟩

end XmlRaw
